import Mathlib

set_option maxHeartbeats 1000000

/-!
Verification development for a small vector-space retrieval engine.

The engine keeps an inverted index and a forward index over documents,
computes TF-IDF weights and ranks documents against a query by cosine
similarity.  Python dicts are embedded as association lists with string
keys that preserve insertion order and update in place; the real-valued
transcendental functions (natural logarithm, square root) are abstract
parameters `lg` and `sq` over ℚ, and the text-normalization collaborator
is an abstract parameter `pp : String → String` (it lives outside the
indexing core).
-/

/-- Lookup in an association map: first binding of the key, as a Python
dict read. -/
def lookupS {α : Type} : List (String × α) → String → Option α
  | [], _ => none
  | p :: t, k => if p.1 = k then some p.2 else lookupS t k

/-- Insert into an association map with Python-dict semantics: an existing
key is updated in place, a fresh key is appended at the end. -/
def insertS {α : Type} : List (String × α) → String → α → List (String × α)
  | [], k, v => [(k, v)]
  | p :: t, k, v => if p.1 = k then (k, v) :: t else p :: insertS t k v

/-- Delete a key from an association map (Python `del`). -/
def eraseS {α : Type} : List (String × α) → String → List (String × α)
  | [], _ => []
  | p :: t, k => if p.1 = k then t else p :: eraseS t k

/-- The key list of an association map, in insertion order. -/
def keysS {α : Type} (m : List (String × α)) : List String := m.map Prod.fst

/-- Key membership test (Python `in` on a dict). -/
def memS {α : Type} (m : List (String × α)) (k : String) : Bool :=
  (lookupS m k).isSome

/-- The keys of the map are pairwise distinct, as in every Python dict. -/
def NodupKeys {α : Type} (m : List (String × α)) : Prop := (keysS m).Nodup

theorem lookupS_insertS_self {α : Type} (m : List (String × α)) (k : String) (v : α) :
    lookupS (insertS m k v) k = some v := by
  induction m with
  | nil => simp [insertS, lookupS]
  | cons p t ih =>
    by_cases h : p.1 = k
    · simp [insertS, h, lookupS]
    · simp [insertS, h, lookupS, ih]

theorem lookupS_insertS_ne {α : Type} (m : List (String × α)) {k k' : String} (v : α)
    (h : k' ≠ k) : lookupS (insertS m k v) k' = lookupS m k' := by
  have hk : ¬(k = k') := fun hh => h hh.symm
  induction m with
  | nil => simp [insertS, lookupS, hk]
  | cons p t ih =>
    by_cases hp : p.1 = k
    · simp [insertS, hp, lookupS, hk]
    · simp only [insertS, hp, if_false, lookupS]
      by_cases hq : p.1 = k'
      · simp [hq]
      · simp [hq, ih]

theorem insertS_eq_of_lookupS {α : Type} {m : List (String × α)} {k : String} {v : α}
    (h : lookupS m k = some v) : insertS m k v = m := by
  induction m with
  | nil => simp [lookupS] at h
  | cons p t ih =>
    by_cases hp : p.1 = k
    · simp only [lookupS, hp, if_true] at h
      cases h
      simp only [insertS, hp, if_true]
      rw [← hp]
    · simp only [lookupS, hp, if_false] at h
      simp [insertS, hp, ih h]

theorem insertS_of_lookupS_none {α : Type} {m : List (String × α)} {k : String}
    (h : lookupS m k = none) (v : α) : insertS m k v = m ++ [(k, v)] := by
  induction m with
  | nil => simp [insertS]
  | cons p t ih =>
    by_cases hp : p.1 = k
    · simp [lookupS, hp] at h
    · simp only [lookupS, hp, if_false] at h
      simp [insertS, hp, ih h]

theorem lookupS_eraseS_ne {α : Type} (m : List (String × α)) {k k' : String}
    (h : k' ≠ k) : lookupS (eraseS m k) k' = lookupS m k' := by
  have hk : ¬(k = k') := fun hh => h hh.symm
  induction m with
  | nil => simp [eraseS]
  | cons p t ih =>
    by_cases hp : p.1 = k
    · simp [eraseS, hp, lookupS, hk]
    · simp only [eraseS, hp, if_false, lookupS]
      by_cases hq : p.1 = k'
      · simp [hq]
      · simp [hq, ih]

theorem mem_keysS_iff_lookupS {α : Type} (m : List (String × α)) (k : String) :
    k ∈ keysS m ↔ (lookupS m k).isSome := by
  induction m with
  | nil => simp [keysS, lookupS]
  | cons p t ih =>
    by_cases hp : p.1 = k
    · simp [keysS, lookupS, hp]
    · simp only [keysS, List.map_cons, List.mem_cons, lookupS, hp, if_false]
      constructor
      · intro h
        rcases h with h | h
        · exact absurd h.symm hp
        · exact (ih.mp (by simpa [keysS] using h))
      · intro h
        exact Or.inr (by simpa [keysS] using ih.mpr h)

theorem lookupS_eraseS_self {α : Type} {m : List (String × α)} (h : NodupKeys m)
    (k : String) : lookupS (eraseS m k) k = none := by
  induction m with
  | nil => simp [eraseS, lookupS]
  | cons p t ih =>
    simp only [NodupKeys, keysS, List.map_cons, List.nodup_cons] at h
    by_cases hp : p.1 = k
    · subst hp
      simp only [eraseS, if_true]
      cases hl : lookupS t p.1 with
      | none => rfl
      | some v =>
        exact absurd ((mem_keysS_iff_lookupS t p.1).mpr (by simp [hl])) h.1
    · simp only [eraseS, hp, if_false, lookupS, hp]
      exact ih h.2

theorem keysS_insertS_of_mem {α : Type} {m : List (String × α)} {k : String}
    (h : (lookupS m k).isSome) (v : α) : keysS (insertS m k v) = keysS m := by
  induction m with
  | nil => simp [lookupS] at h
  | cons p t ih =>
    by_cases hp : p.1 = k
    · simp [insertS, hp, keysS]
    · simp only [lookupS, hp, if_false] at h
      simp only [insertS, hp, if_false, keysS, List.map_cons]
      have hh := ih h
      simp only [keysS] at hh
      rw [hh]

theorem keysS_insertS_of_not_mem {α : Type} {m : List (String × α)} {k : String}
    (h : lookupS m k = none) (v : α) : keysS (insertS m k v) = keysS m ++ [k] := by
  rw [insertS_of_lookupS_none h]
  simp [keysS]

theorem nodupKeys_insertS {α : Type} {m : List (String × α)} (h : NodupKeys m)
    (k : String) (v : α) : NodupKeys (insertS m k v) := by
  cases hl : lookupS m k with
  | some w =>
    unfold NodupKeys
    rw [keysS_insertS_of_mem (by simp [hl]) v]
    exact h
  | none =>
    unfold NodupKeys
    rw [keysS_insertS_of_not_mem hl v]
    refine List.Nodup.append h (List.nodup_singleton k) ?_
    intro a ha hb
    simp only [List.mem_singleton] at hb
    subst hb
    rw [mem_keysS_iff_lookupS, hl] at ha
    simp at ha

theorem keysS_eraseS_sublist {α : Type} (m : List (String × α)) (k : String) :
    (keysS (eraseS m k)).Sublist (keysS m) := by
  induction m with
  | nil => simp [eraseS]
  | cons p t ih =>
    by_cases hp : p.1 = k
    · simp only [eraseS, hp, if_true, keysS, List.map_cons]
      exact List.sublist_cons_self k (List.map Prod.fst t)
    · simp only [eraseS, hp, if_false, keysS, List.map_cons]
      exact List.Sublist.cons₂ p.1 (by simpa [keysS] using ih)

theorem nodupKeys_eraseS {α : Type} {m : List (String × α)} (h : NodupKeys m)
    (k : String) : NodupKeys (eraseS m k) := by
  exact List.Nodup.sublist (keysS_eraseS_sublist m k) h

theorem lookupS_mem {α : Type} {m : List (String × α)} {k : String} {v : α}
    (h : lookupS m k = some v) : (k, v) ∈ m := by
  induction m with
  | nil => simp [lookupS] at h
  | cons p t ih =>
    by_cases hp : p.1 = k
    · simp only [lookupS, hp, if_true] at h
      cases h
      refine List.mem_cons.mpr (Or.inl ?_)
      rw [← hp]
    · simp only [lookupS, hp, if_false] at h
      exact List.mem_cons_of_mem _ (ih h)

/-- Character-level worker for `tokenize`: accumulates the current token in
reverse and emits it at each whitespace run or at the end. -/
def splitWsAux : List Char → List Char → List String
  | [], acc => if acc = [] then [] else [String.mk acc.reverse]
  | c :: cs, acc =>
    if c.isWhitespace then
      (if acc = [] then [] else [String.mk acc.reverse]) ++ splitWsAux cs []
    else splitWsAux cs (c :: acc)

/-- Whitespace tokenization: Python `str.split()` with no argument splits on
runs of whitespace and never yields empty tokens. -/
def tokenize (s : String) : List String := splitWsAux s.data []

/-- `collections.Counter` over a token list: maps each token to its number of
occurrences, keys in order of first occurrence. -/
def countWords (ws : List String) : List (String × Nat) :=
  ws.foldl (fun m w => insertS m w ((lookupS m w).getD 0 + 1)) []

/-- Sum of the stored counts (Python `sum(word_counts.values())`). -/
def sumCounts (wc : List (String × Nat)) : Nat :=
  wc.foldl (fun a p => a + p.2) 0

/-- State of `DocumentIndex`: the two postings views, the corpus size, the
per-document lengths, the (never-populated) TF-IDF weight table and the IDF
cache. -/
structure DocumentIndex where
  inverted_index : List (String × List (String × Nat))
  forward_index : List (String × List (String × Nat))
  total_documents : Nat
  document_lengths : List (String × Nat)
  tf_idf_weights : List (String × List (String × Rat))
  idf_cache : List (String × Rat)
  deriving DecidableEq

/-- The freshly constructed, empty index (`DocumentIndex.__init__`). -/
def emptyIndex : DocumentIndex :=
  { inverted_index := [], forward_index := [], total_documents := 0,
    document_lengths := [], tf_idf_weights := [], idf_cache := [] }

/-- The indexing loop of `add_document`: for each `(word, count)` write the
count into `inverted_index[word][doc_id]` and `forward_index[doc_id][word]`. -/
def updateIndexes (doc_id : String) (wc : List (String × Nat))
    (inv fwd : List (String × List (String × Nat))) :
    List (String × List (String × Nat)) × List (String × List (String × Nat)) :=
  wc.foldl
    (fun acc p =>
      (insertS acc.1 p.1 (insertS ((lookupS acc.1 p.1).getD []) doc_id p.2),
       insertS acc.2 doc_id (insertS ((lookupS acc.2 doc_id).getD []) p.1 p.2)))
    (inv, fwd)

/-- `DocumentIndex.add_document`, with the text-normalization collaborator
passed as `pp`.  A document whose normalized content is empty is silently
skipped. -/
def DocumentIndex.add_document (pp : String → String) (idx : DocumentIndex)
    (doc_id content : String) : DocumentIndex :=
  let processed := pp content
  if processed = "" then idx
  else
    let wc := countWords (tokenize processed)
    let iv := updateIndexes doc_id wc idx.inverted_index idx.forward_index
    { inverted_index := iv.1,
      forward_index := iv.2,
      document_lengths := insertS idx.document_lengths doc_id (sumCounts wc),
      idf_cache := [],
      total_documents := iv.2.length,
      tf_idf_weights := idx.tf_idf_weights }

/-- One step of the removal loop: `inverted_index[word]` is read through the
defaultdict (creating an empty entry when the word is absent), `doc_id` is
deleted from the postings when present, and a postings map that became empty
is deleted outright. -/
def removeWordPosting (doc_id : String) (inv : List (String × List (String × Nat)))
    (w : String) : List (String × List (String × Nat)) :=
  match lookupS inv w with
  | none => insertS inv w []
  | some posting =>
    if memS posting doc_id then
      let p := eraseS posting doc_id
      if p = [] then eraseS inv w else insertS inv w p
    else inv

/-- `DocumentIndex.remove_document`. -/
def DocumentIndex.remove_document (idx : DocumentIndex) (doc_id : String) :
    DocumentIndex :=
  match lookupS idx.forward_index doc_id with
  | none => idx
  | some entry =>
    let words := keysS entry
    let fwd := eraseS idx.forward_index doc_id
    let inv := words.foldl (removeWordPosting doc_id) idx.inverted_index
    { inverted_index := inv,
      forward_index := fwd,
      document_lengths := eraseS idx.document_lengths doc_id,
      tf_idf_weights := eraseS idx.tf_idf_weights doc_id,
      idf_cache := [],
      total_documents := fwd.length }

/-- `DocumentIndex.calculate_tf`: `0` when the document or term is absent,
otherwise the raw count divided by the stored document length (which Python
defaults to `1` when missing). -/
def DocumentIndex.calculate_tf (idx : DocumentIndex) (word doc_id : String) : Rat :=
  match lookupS idx.forward_index doc_id with
  | none => 0
  | some entry =>
    match lookupS entry word with
    | none => 0
    | some c => (c : Rat) / (((lookupS idx.document_lengths doc_id).getD 1 : Nat) : Rat)

/-- `DocumentIndex.calculate_idf`, with `math.log` abstracted as `lg`.
Returns the value together with the updated index (the cache write is the
only mutation).  A cache hit is served directly; an unknown term returns `0`
without caching; otherwise `lg (total_documents / doc_frequency)` is computed
and cached. -/
def DocumentIndex.calculate_idf (lg : Rat → Rat) (idx : DocumentIndex)
    (word : String) : Rat × DocumentIndex :=
  match lookupS idx.idf_cache word with
  | some v => (v, idx)
  | none =>
    match lookupS idx.inverted_index word with
    | none => (0, idx)
    | some posting =>
      let idf := if posting.length = 0 then (0 : Rat)
                 else lg ((idx.total_documents : Rat) / (posting.length : Rat))
      (idf, { idx with idf_cache := insertS idx.idf_cache word idf })

/-- `DocumentIndex.calculate_tf_idf` (threads the cache write of the IDF
lookup). -/
def DocumentIndex.calculate_tf_idf (lg : Rat → Rat) (idx : DocumentIndex)
    (word doc_id : String) : Rat × DocumentIndex :=
  let tf := idx.calculate_tf word doc_id
  let r := idx.calculate_idf lg word
  (tf * r.1, r.2)

/-- `DocumentIndex.get_document_vector`: the empty map for an unindexed
document, otherwise the TF-IDF weight of every term of the forward entry. -/
def DocumentIndex.get_document_vector (lg : Rat → Rat) (idx : DocumentIndex)
    (doc_id : String) : List (String × Rat) × DocumentIndex :=
  match lookupS idx.forward_index doc_id with
  | none => ([], idx)
  | some entry =>
    entry.foldl
      (fun acc p =>
        let r := acc.2.calculate_tf_idf lg p.1 doc_id
        (insertS acc.1 p.1 r.1, r.2))
      ([], idx)

/-- `DocumentIndex.get_query_vector`: the query is normalized and tokenized
like a document, but the TF component is the raw occurrence count. -/
def DocumentIndex.get_query_vector (pp : String → String) (lg : Rat → Rat)
    (idx : DocumentIndex) (query : String) : List (String × Rat) × DocumentIndex :=
  let processed := pp query
  if processed = "" then ([], idx)
  else
    (countWords (tokenize processed)).foldl
      (fun acc p =>
        let r := acc.2.calculate_idf lg p.1
        (insertS acc.1 p.1 ((p.2 : Rat) * r.1), r.2))
      ([], idx)

/-- `DocumentIndex.calculate_cosine_similarity`, with `math.sqrt` abstracted
as `sq`: dot product over the shared keys divided by the product of the two
full L2 norms, `0` when there are no shared keys or either norm is `0`. -/
def DocumentIndex.calculate_cosine_similarity (sq : Rat → Rat)
    (vec1 vec2 : List (String × Rat)) : Rat :=
  let common := (keysS vec1).filter (fun w => memS vec2 w)
  if common = [] then 0
  else
    let dot := common.foldl
      (fun a w => a + ((lookupS vec1 w).getD 0) * ((lookupS vec2 w).getD 0)) 0
    let norm1 := sq (vec1.foldl (fun a p => a + p.2 ^ 2) 0)
    let norm2 := sq (vec2.foldl (fun a p => a + p.2 ^ 2) 0)
    if norm1 = 0 ∨ norm2 = 0 then 0 else dot / (norm1 * norm2)

/-- Stable insertion into a score-descending list: the new element goes after
every element with an equal or higher score, as Python's stable sort orders
it. -/
def insertDesc (x : String × Rat) : List (String × Rat) → List (String × Rat)
  | [] => [x]
  | y :: t => if y.2 < x.2 then x :: y :: t else y :: insertDesc x t

/-- Stable sort by score descending (`list.sort(key=..., reverse=True)`). -/
def sortDesc (l : List (String × Rat)) : List (String × Rat) :=
  l.foldl (fun acc x => insertDesc x acc) []

/-- `DocumentIndex.search`: guard on the empty query and the empty corpus,
build the query vector, score every indexed document, keep strictly positive
similarities, sort descending and truncate to `top_k`. -/
def DocumentIndex.search (pp : String → String) (lg sq : Rat → Rat)
    (idx : DocumentIndex) (query : String) (top_k : Nat) :
    List (String × Rat) × DocumentIndex :=
  if query = "" ∨ idx.total_documents = 0 then ([], idx)
  else
    let q := idx.get_query_vector pp lg query
    if q.1 = [] then ([], q.2)
    else
      let r := q.2.forward_index.foldl
        (fun acc p =>
          let dv := acc.2.get_document_vector lg p.1
          let s := DocumentIndex.calculate_cosine_similarity sq q.1 dv.1
          (if 0 < s then acc.1 ++ [(p.1, s)] else acc.1, dv.2))
        ([], q.2)
      ((sortDesc r.1).take top_k, r.2)

/-- `DocumentIndex.get_document_keywords`: the document vector sorted by
weight descending, truncated to `top_k`; empty for an unindexed document. -/
def DocumentIndex.get_document_keywords (lg : Rat → Rat) (idx : DocumentIndex)
    (doc_id : String) (top_k : Nat) : List (String × Rat) × DocumentIndex :=
  match lookupS idx.forward_index doc_id with
  | none => ([], idx)
  | some _ =>
    let v := idx.get_document_vector lg doc_id
    ((sortDesc v.1).take top_k, v.2)

/-- A stored document record (`utils.document_manager.Document`); the
storage-only bookkeeping fields (file path, metadata, creation time) are
outside the retrieval core and are not modelled. -/
structure Document where
  doc_id : String
  title : String
  content : String
  processed_content : String
  deriving DecidableEq

/-- A search hit produced by the Orchestrator
(`core.search_engine.SearchResult`); the display-only snippet is
presentation, not retrieval state, and is not modelled. -/
structure SearchResult where
  document : Document
  score : Rat
  matched_keywords : List String
  deriving DecidableEq

/-- State of the Orchestrator (`core.search_engine.SearchEngine`): the
storage collaborator's record map and the Index Engine. -/
structure SearchEngine where
  documents : List (String × Document)
  index : DocumentIndex
  deriving DecidableEq

/-- `DocumentManager.delete_document`: deletes the record and reports whether
it was present. -/
def delete_document (documents : List (String × Document)) (doc_id : String) :
    Bool × List (String × Document) :=
  if memS documents doc_id then (true, eraseS documents doc_id)
  else (false, documents)

/-- `SearchEngine.remove_document`: storage deletion first; the index is
touched only when the storage deletion succeeded. -/
def SearchEngine.remove_document (se : SearchEngine) (doc_id : String) :
    Bool × SearchEngine :=
  let r := delete_document se.documents doc_id
  if r.1 then (r.1, { documents := r.2, index := se.index.remove_document doc_id })
  else (r.1, { documents := r.2, index := se.index })

/-- `SearchEngine._find_matched_keywords`: the query keywords that occur
verbatim among the document's stored normalized tokens. -/
def find_matched_keywords (doc_content : String) (query_keywords : List String) :
    List String :=
  query_keywords.filter (fun k => k ∈ tokenize doc_content)

/-- The hit-consumption loop of `SearchEngine.search`: in score order, drop a
hit below `min_score`, skip a hit whose record is missing from storage, and
stop as soon as `top_k` results have been accumulated. -/
def collectResults (documents : List (String × Document))
    (query_keywords : List String) (min_score : Rat) (top_k : Nat) :
    List (String × Rat) → List SearchResult → List SearchResult
  | [], acc => acc
  | h :: rest, acc =>
    if h.2 < min_score then
      collectResults documents query_keywords min_score top_k rest acc
    else
      match lookupS documents h.1 with
      | none => collectResults documents query_keywords min_score top_k rest acc
      | some doc =>
        let res : SearchResult :=
          { document := doc, score := h.2,
            matched_keywords :=
              find_matched_keywords doc.processed_content query_keywords }
        let acc' := acc ++ [res]
        if top_k ≤ acc'.length then acc'
        else collectResults documents query_keywords min_score top_k rest acc'

/-- `SearchEngine.search`: a blank query (Python `not query.strip()`, i.e.
every character is whitespace) returns `[]`; otherwise the Index Engine is
asked for `top_k * 2` raw hits, which are consumed by `collectResults`. -/
def SearchEngine.search (pp : String → String) (lg sq : Rat → Rat)
    (se : SearchEngine) (query : String) (top_k : Nat) (min_score : Rat) :
    List SearchResult × SearchEngine :=
  if query.data.all Char.isWhitespace then ([], se)
  else
    let r := se.index.search pp lg sq query (top_k * 2)
    let processed := pp query
    let query_keywords := if processed = "" then [] else tokenize processed
    (collectResults se.documents query_keywords min_score top_k r.1 [],
     { documents := se.documents, index := r.2 })

/-- The public operations of the Index Engine, for stating properties of
every reachable index state. -/
inductive Op where
  | addDoc (doc_id content : String)
  | removeDoc (doc_id : String)
  | idfOp (word : String)
  | tfIdfOp (word doc_id : String)
  | docVectorOp (doc_id : String)
  | queryVectorOp (query : String)
  | searchOp (query : String) (top_k : Nat)
  | keywordsOp (doc_id : String) (top_k : Nat)

/-- The state reached after one public call (query calls keep only their
cache writes). -/
def applyOp (pp : String → String) (lg sq : Rat → Rat) (idx : DocumentIndex) :
    Op → DocumentIndex
  | .addDoc d c => idx.add_document pp d c
  | .removeDoc d => idx.remove_document d
  | .idfOp w => (idx.calculate_idf lg w).2
  | .tfIdfOp w d => (idx.calculate_tf_idf lg w d).2
  | .docVectorOp d => (idx.get_document_vector lg d).2
  | .queryVectorOp q => (idx.get_query_vector pp lg q).2
  | .searchOp q k => (idx.search pp lg sq q k).2
  | .keywordsOp d k => (idx.get_document_keywords lg d k).2

/-- The state after a sequence of public calls starting from the empty
index. -/
def runOps (pp : String → String) (lg sq : Rat → Rat) (ops : List Op) :
    DocumentIndex :=
  ops.foldl (applyOp pp lg sq) emptyIndex

/-- IDF recomputed from scratch on the current index state, ignoring the
cache: `0` for an unknown term, otherwise `lg (total_documents /
doc_frequency)`. -/
def idf_spec (lg : Rat → Rat) (idx : DocumentIndex) (word : String) : Rat :=
  match lookupS idx.inverted_index word with
  | none => 0
  | some posting =>
    if posting.length = 0 then 0
    else lg ((idx.total_documents : Rat) / (posting.length : Rat))

/-- TF-IDF from scratch. -/
def tf_idf_spec (lg : Rat → Rat) (idx : DocumentIndex) (word doc_id : String) :
    Rat :=
  idx.calculate_tf word doc_id * idf_spec lg idx word

/-- The document vector from scratch: one weight per forward-entry term. -/
def document_vector_spec (lg : Rat → Rat) (idx : DocumentIndex)
    (doc_id : String) : List (String × Rat) :=
  match lookupS idx.forward_index doc_id with
  | none => []
  | some entry => entry.map (fun p => (p.1, tf_idf_spec lg idx p.1 doc_id))

/-- The query vector from scratch: raw count times IDF per distinct query
term. -/
def query_vector_spec (pp : String → String) (lg : Rat → Rat)
    (idx : DocumentIndex) (query : String) : List (String × Rat) :=
  let processed := pp query
  if processed = "" then []
  else (countWords (tokenize processed)).map
    (fun p => (p.1, (p.2 : Rat) * idf_spec lg idx p.1))

/-- Query-document similarity from scratch. -/
def similarity_spec (pp : String → String) (lg sq : Rat → Rat)
    (idx : DocumentIndex) (query doc_id : String) : Rat :=
  DocumentIndex.calculate_cosine_similarity sq
    (query_vector_spec pp lg idx query) (document_vector_spec lg idx doc_id)

/-- The pre-sort candidate list of `search`: every indexed document whose
similarity to the query is strictly positive, in forward-index order. -/
def search_candidates (pp : String → String) (lg sq : Rat → Rat)
    (idx : DocumentIndex) (query : String) : List (String × Rat) :=
  idx.forward_index.filterMap (fun p =>
    let s := similarity_spec pp lg sq idx query p.1
    if 0 < s then some (p.1, s) else none)

/-- Every cache entry agrees with IDF recomputed from scratch on the current
state. -/
def CacheOK (lg : Rat → Rat) (idx : DocumentIndex) : Prop :=
  ∀ w v, lookupS idx.idf_cache w = some v → v = idf_spec lg idx w

/-- Two index states that agree on everything except possibly the IDF
cache. -/
def SameIndexes (idx idx' : DocumentIndex) : Prop :=
  idx'.inverted_index = idx.inverted_index ∧
  idx'.forward_index = idx.forward_index ∧
  idx'.total_documents = idx.total_documents ∧
  idx'.document_lengths = idx.document_lengths ∧
  idx'.tf_idf_weights = idx.tf_idf_weights


theorem lookupS_eq_none_of_not_mem {α : Type} {m : List (String × α)} {k : String}
    (h : k ∉ keysS m) : lookupS m k = none := by
  cases hl : lookupS m k with
  | none => rfl
  | some v => exact absurd ((mem_keysS_iff_lookupS m k).mpr (by simp [hl])) h

theorem nodupKeys_cons {α : Type} {p : String × α} {t : List (String × α)}
    (h : NodupKeys (p :: t)) : p.1 ∉ keysS t ∧ NodupKeys t := by
  simpa [NodupKeys, keysS] using h

/-- Pointwise view of the inverted index after the indexing loop of
`add_document`: a term of the word-count map gets the document written into
its postings, every other term is untouched. -/
theorem updateIndexes_inverted_lookup (doc_id : String)
    (wc : List (String × Nat)) (hwc : NodupKeys wc)
    (inv fwd : List (String × List (String × Nat))) (w : String) :
    lookupS (updateIndexes doc_id wc inv fwd).1 w =
      match lookupS wc w with
      | some c => some (insertS ((lookupS inv w).getD []) doc_id c)
      | none => lookupS inv w := by
  induction wc generalizing inv fwd with
  | nil => simp [updateIndexes, lookupS]
  | cons p t ih =>
    obtain ⟨hnm, hnd⟩ := nodupKeys_cons hwc
    have step : updateIndexes doc_id (p :: t) inv fwd =
        updateIndexes doc_id t
          (insertS inv p.1 (insertS ((lookupS inv p.1).getD []) doc_id p.2))
          (insertS fwd doc_id (insertS ((lookupS fwd doc_id).getD []) p.1 p.2)) := by
      simp [updateIndexes]
    rw [step, ih hnd]
    by_cases hw : p.1 = w
    · subst hw
      have ht : lookupS t p.1 = none := lookupS_eq_none_of_not_mem hnm
      simp [lookupS, ht, lookupS_insertS_self]
    · have hne : w ≠ p.1 := fun hh => hw hh.symm
      simp [lookupS, hw, lookupS_insertS_ne _ _ hne]

/-- Pointwise view of the forward index after the indexing loop of
`add_document`: the document's entry accumulates every `(word, count)` pair,
every other document is untouched. -/
theorem updateIndexes_forward_lookup (doc_id : String)
    (wc : List (String × Nat))
    (inv fwd : List (String × List (String × Nat))) (d : String) :
    lookupS (updateIndexes doc_id wc inv fwd).2 d =
      if d = doc_id then
        (if wc = [] then lookupS fwd doc_id
         else some (wc.foldl (fun e p => insertS e p.1 p.2)
           ((lookupS fwd doc_id).getD [])))
      else lookupS fwd d := by
  induction wc generalizing inv fwd with
  | nil =>
    simp only [updateIndexes, List.foldl_nil]
    by_cases hd : d = doc_id
    · subst hd
      simp
    · simp [hd]
  | cons p t ih =>
    have step : updateIndexes doc_id (p :: t) inv fwd =
        updateIndexes doc_id t
          (insertS inv p.1 (insertS ((lookupS inv p.1).getD []) doc_id p.2))
          (insertS fwd doc_id (insertS ((lookupS fwd doc_id).getD []) p.1 p.2)) := by
      simp [updateIndexes]
    rw [step, ih]
    by_cases hd : d = doc_id
    · subst hd
      by_cases ht : t = []
      · simp [ht, lookupS_insertS_self, List.foldl]
      · simp [ht, lookupS_insertS_self, List.foldl]
    · have hne : d ≠ doc_id := hd
      simp [hd, lookupS_insertS_ne _ _ hne]

/-- Lookup after folding a word-count map into an entry with `insertS`:
counted words read back their count, all other keys fall through. -/
theorem foldl_insertS_lookup (wc : List (String × Nat)) (hwc : NodupKeys wc)
    (e : List (String × Nat)) (w : String) :
    lookupS (wc.foldl (fun e p => insertS e p.1 p.2) e) w =
      match lookupS wc w with
      | some c => some c
      | none => lookupS e w := by
  induction wc generalizing e with
  | nil => simp [lookupS]
  | cons p t ih =>
    obtain ⟨hnm, hnd⟩ := nodupKeys_cons hwc
    simp only [List.foldl_cons]
    rw [ih hnd]
    by_cases hw : p.1 = w
    · subst hw
      have ht : lookupS t p.1 = none := lookupS_eq_none_of_not_mem hnm
      simp [lookupS, ht, lookupS_insertS_self]
    · have hne : w ≠ p.1 := fun hh => hw hh.symm
      simp [lookupS, hw, lookupS_insertS_ne _ _ hne]

/-- The word-count map built by `countWords` has distinct keys. -/
theorem nodupKeys_countWords (ws : List String) : NodupKeys (countWords ws) := by
  have main : ∀ (l : List String) (m : List (String × Nat)), NodupKeys m →
      NodupKeys (l.foldl (fun m w => insertS m w ((lookupS m w).getD 0 + 1)) m) := by
    intro l
    induction l with
    | nil => intro m hm; exact hm
    | cons w t ih =>
      intro m hm
      exact ih _ (nodupKeys_insertS hm _ _)
  exact main ws [] (by simp [NodupKeys, keysS])

/-- C8 — the Orchestrator's `remove_document` returns whether the storage
deletion succeeded; a failed storage deletion leaves the whole engine (in
particular the index) unchanged, and a successful one erases the record and
removes the document from the index. -/
theorem remove_document_storage_first (se : SearchEngine) (doc_id : String) :
    ((se.remove_document doc_id).1 = memS se.documents doc_id) ∧
    ((se.remove_document doc_id).1 = false → (se.remove_document doc_id).2 = se) ∧
    ((se.remove_document doc_id).1 = true →
      (se.remove_document doc_id).2.index = se.index.remove_document doc_id ∧
      (se.remove_document doc_id).2.documents = eraseS se.documents doc_id) := by
  unfold SearchEngine.remove_document delete_document
  by_cases h : memS se.documents doc_id
  · simp [h]
  · simp only [Bool.not_eq_true] at h
    simp [h]

/-- Witness for C8 at a storage that does not hold the document: the deletion
reports failure and the engine is untouched. -/
theorem remove_document_storage_first_witness :
    (SearchEngine.remove_document ⟨[], emptyIndex⟩ "x").1 = false ∧
    (SearchEngine.remove_document ⟨[], emptyIndex⟩ "x").2 = ⟨[], emptyIndex⟩ :=
  ⟨rfl, (remove_document_storage_first ⟨[], emptyIndex⟩ "x").2.1 rfl⟩

/-- C10 — for a document absent from the forward index, both
`get_document_vector` and `get_document_keywords` return an empty result and
leave the index state untouched. -/
theorem vector_and_keywords_absent (lg : Rat → Rat) (idx : DocumentIndex)
    (doc_id : String) (top_k : Nat)
    (h : lookupS idx.forward_index doc_id = none) :
    idx.get_document_vector lg doc_id = ([], idx) ∧
    idx.get_document_keywords lg doc_id top_k = ([], idx) := by
  unfold DocumentIndex.get_document_vector DocumentIndex.get_document_keywords
  rw [h]
  exact ⟨rfl, rfl⟩

/-- Witness for C10 on the empty index. -/
theorem vector_and_keywords_absent_witness :
    DocumentIndex.get_document_vector (fun x => x) emptyIndex "d" = ([], emptyIndex) ∧
    DocumentIndex.get_document_keywords (fun x => x) emptyIndex "d" 3 = ([], emptyIndex) :=
  vector_and_keywords_absent (fun x => x) emptyIndex "d" 3 rfl

/-- C2 counterexample — re-adding `"d"` (first content `"cat"`, then
`"dog"`) does not replace the postings: the stale term `"cat"` survives in
both the forward entry and the inverted index, so the postings are not
determined by the new content alone. -/
theorem re_add_merges_cex :
    lookupS (DocumentIndex.add_document id
        (DocumentIndex.add_document id emptyIndex "d" "cat") "d" "dog").forward_index
      "d" = some [("cat", 1), ("dog", 1)] ∧
    lookupS (DocumentIndex.add_document id
        (DocumentIndex.add_document id emptyIndex "d" "cat") "d" "dog").inverted_index
      "cat" = some [("d", 1)] := by
  constructor
  · rfl
  · rfl

/-- C2 (amended) — re-adding an already indexed document overwrites the
count of every term of the new content, updates the stored length to the new
content's total count, but merges with the earlier postings: terms absent
from the new content keep their old forward-entry count and their inverted
postings are untouched. -/
theorem add_document_re_add_merges (pp : String → String) (idx : DocumentIndex)
    (d content : String) (h : pp content ≠ "")
    (hidx : lookupS idx.forward_index d ≠ none) :
    ∃ E, lookupS (idx.add_document pp d content).forward_index d = some E ∧
      (∀ w c, lookupS (countWords (tokenize (pp content))) w = some c →
        lookupS E w = some c) ∧
      (∀ w, lookupS (countWords (tokenize (pp content))) w = none →
        lookupS E w = lookupS ((lookupS idx.forward_index d).getD []) w) ∧
      (∀ w, lookupS (countWords (tokenize (pp content))) w = none →
        lookupS (idx.add_document pp d content).inverted_index w =
          lookupS idx.inverted_index w) ∧
      lookupS (idx.add_document pp d content).document_lengths d =
        some (sumCounts (countWords (tokenize (pp content)))) := by
  have hwc := nodupKeys_countWords (tokenize (pp content))
  obtain ⟨E0, hE0⟩ : ∃ e, lookupS idx.forward_index d = some e := by
    cases hl : lookupS idx.forward_index d with
    | none => exact absurd hl hidx
    | some e => exact ⟨e, rfl⟩
  have hadd : idx.add_document pp d content =
      { inverted_index := (updateIndexes d (countWords (tokenize (pp content)))
          idx.inverted_index idx.forward_index).1,
        forward_index := (updateIndexes d (countWords (tokenize (pp content)))
          idx.inverted_index idx.forward_index).2,
        document_lengths := insertS idx.document_lengths d
          (sumCounts (countWords (tokenize (pp content)))),
        idf_cache := [],
        total_documents := (updateIndexes d (countWords (tokenize (pp content)))
          idx.inverted_index idx.forward_index).2.length,
        tf_idf_weights := idx.tf_idf_weights } := by
    rw [DocumentIndex.add_document]
    simp [h]
  rw [hadd]
  by_cases hnil : countWords (tokenize (pp content)) = []
  · refine ⟨E0, ?_, ?_, ?_, ?_, ?_⟩
    · rw [updateIndexes_forward_lookup]
      simp [hnil, hE0]
    · intro w c hwl
      rw [hnil] at hwl
      simp [lookupS] at hwl
    · intro w _
      simp [hE0]
    · intro w hwl
      rw [updateIndexes_inverted_lookup d _ hwc, hwl]
    · exact lookupS_insertS_self _ _ _
  · refine ⟨(countWords (tokenize (pp content))).foldl
      (fun e p => insertS e p.1 p.2) ((lookupS idx.forward_index d).getD []),
      ?_, ?_, ?_, ?_, ?_⟩
    · rw [updateIndexes_forward_lookup]
      simp [hnil]
    · intro w c hwl
      rw [foldl_insertS_lookup _ hwc, hwl]
    · intro w hwl
      rw [foldl_insertS_lookup _ hwc, hwl]
    · intro w hwl
      rw [updateIndexes_inverted_lookup d _ hwc, hwl]
    · exact lookupS_insertS_self _ _ _

/-- Witness for C2 (amended): after indexing `"d"` with `"cat"` and
re-adding it with `"dog"`, the forward entry exists and the stale term
`"cat"` keeps its old count. -/
theorem add_document_re_add_merges_witness :
    ∃ E, lookupS (DocumentIndex.add_document id
        (DocumentIndex.add_document id emptyIndex "d" "cat") "d" "dog").forward_index
      "d" = some E ∧ lookupS E "cat" = some 1 := by
  obtain ⟨E, hE, _, hold, _, _⟩ := add_document_re_add_merges id
    (DocumentIndex.add_document id emptyIndex "d" "cat") "d" "dog"
    (by decide) (by decide)
  refine ⟨E, hE, ?_⟩
  have hc := hold "cat" (by decide)
  rw [hc]
  decide

/-- Second pass of the indexing loop over postings that already hold exactly
these counts is the identity. -/
theorem updateIndexes_identity (doc_id : String) (wc : List (String × Nat))
    (hwc : NodupKeys wc) (inv fwd : List (String × List (String × Nat)))
    (hinv : ∀ w c, lookupS wc w = some c →
      ∃ p, lookupS inv w = some p ∧ lookupS p doc_id = some c)
    (hfwd : ∀ w c, lookupS wc w = some c →
      ∃ e, lookupS fwd doc_id = some e ∧ lookupS e w = some c) :
    updateIndexes doc_id wc inv fwd = (inv, fwd) := by
  induction wc with
  | nil => rfl
  | cons p t ih =>
    obtain ⟨hnm, hnd⟩ := nodupKeys_cons hwc
    have hp : lookupS (p :: t) p.1 = some p.2 := by simp [lookupS]
    obtain ⟨P, hP, hPd⟩ := hinv p.1 p.2 hp
    obtain ⟨e, he, hew⟩ := hfwd p.1 p.2 hp
    have hstep1 : insertS inv p.1
        (insertS ((lookupS inv p.1).getD []) doc_id p.2) = inv := by
      rw [hP]
      simp only [Option.getD_some]
      rw [insertS_eq_of_lookupS hPd]
      exact insertS_eq_of_lookupS hP
    have hstep2 : insertS fwd doc_id
        (insertS ((lookupS fwd doc_id).getD []) p.1 p.2) = fwd := by
      rw [he]
      simp only [Option.getD_some]
      rw [insertS_eq_of_lookupS hew]
      exact insertS_eq_of_lookupS he
    have hsub : ∀ w c, lookupS t w = some c → lookupS (p :: t) w = some c := by
      intro w c hl
      by_cases hw : p.1 = w
      · subst hw
        rw [lookupS_eq_none_of_not_mem hnm] at hl
        cases hl
      · simp [lookupS, hw, hl]
    have step : updateIndexes doc_id (p :: t) inv fwd =
        updateIndexes doc_id t inv fwd := by
      simp only [updateIndexes, List.foldl_cons, hstep1, hstep2]
    rw [step]
    exact ih hnd (fun w c hl => hinv w c (hsub w c hl))
      (fun w c hl => hfwd w c (hsub w c hl))

/-- C9 — adding the same document with the same content twice in succession
yields exactly the index state of adding it once. -/
theorem add_document_idem (pp : String → String) (idx : DocumentIndex)
    (d content : String) :
    (idx.add_document pp d content).add_document pp d content =
      idx.add_document pp d content := by
  by_cases h : pp content = ""
  · simp [DocumentIndex.add_document, h]
  · have hwc := nodupKeys_countWords (tokenize (pp content))
    have hadd : ∀ j : DocumentIndex, j.add_document pp d content =
        { inverted_index := (updateIndexes d (countWords (tokenize (pp content)))
            j.inverted_index j.forward_index).1,
          forward_index := (updateIndexes d (countWords (tokenize (pp content)))
            j.inverted_index j.forward_index).2,
          document_lengths := insertS j.document_lengths d
            (sumCounts (countWords (tokenize (pp content)))),
          idf_cache := [],
          total_documents := (updateIndexes d (countWords (tokenize (pp content)))
            j.inverted_index j.forward_index).2.length,
          tf_idf_weights := j.tf_idf_weights } := by
      intro j
      rw [DocumentIndex.add_document]
      simp [h]
    rw [hadd idx, hadd _]
    have hid : updateIndexes d (countWords (tokenize (pp content)))
        (updateIndexes d (countWords (tokenize (pp content)))
          idx.inverted_index idx.forward_index).1
        (updateIndexes d (countWords (tokenize (pp content)))
          idx.inverted_index idx.forward_index).2 =
        ((updateIndexes d (countWords (tokenize (pp content)))
          idx.inverted_index idx.forward_index).1,
         (updateIndexes d (countWords (tokenize (pp content)))
          idx.inverted_index idx.forward_index).2) := by
      apply updateIndexes_identity d _ hwc
      · intro w c hwl
        refine ⟨insertS ((lookupS idx.inverted_index w).getD []) d c, ?_,
          lookupS_insertS_self _ _ _⟩
        rw [updateIndexes_inverted_lookup d _ hwc, hwl]
      · intro w c hwl
        have hne : countWords (tokenize (pp content)) ≠ [] := by
          intro hnil
          rw [hnil] at hwl
          simp [lookupS] at hwl
        refine ⟨(countWords (tokenize (pp content))).foldl
          (fun e p => insertS e p.1 p.2)
          ((lookupS idx.forward_index d).getD []), ?_, ?_⟩
        · rw [updateIndexes_forward_lookup]
          simp [hne]
        · rw [foldl_insertS_lookup _ hwc, hwl]
    have hL : insertS (insertS idx.document_lengths d
        (sumCounts (countWords (tokenize (pp content))))) d
        (sumCounts (countWords (tokenize (pp content)))) =
        insertS idx.document_lengths d
          (sumCounts (countWords (tokenize (pp content)))) :=
      insertS_eq_of_lookupS (lookupS_insertS_self _ _ _)
    simp only [hid, hL]

theorem foldl_add_eq_sum {α : Type} {M : Type} [AddCommMonoid M]
    (l : List α) (f : α → M) (a : M) :
    l.foldl (fun acc x => acc + f x) a = a + (l.map f).sum := by
  induction l generalizing a with
  | nil => simp
  | cons x t ih =>
    simp only [List.foldl_cons, List.map_cons, List.sum_cons]
    rw [ih, add_assoc]

theorem sumCounts_eq_sum (e : List (String × Nat)) :
    sumCounts e = (e.map Prod.snd).sum := by
  simpa [sumCounts] using foldl_add_eq_sum e Prod.snd 0

/-- A stored count never exceeds the sum of all stored counts. -/
theorem count_le_sumCounts {e : List (String × Nat)} {t : String} {c : Nat}
    (h : lookupS e t = some c) : c ≤ sumCounts e := by
  rw [sumCounts_eq_sum]
  exact List.single_le_sum (fun x _ => Nat.zero_le x) c
    (List.mem_map.mpr ⟨(t, c), lookupS_mem h, rfl⟩)

/-- C3 counterexample — the TF bound `0 < tf ≤ 1` fails on a reachable
state: after `add "d" "cat cat"` followed by the merging re-add
`add "d" "dog"`, the stored length of `"d"` is `1` while the count of
`"cat"` is still `2`, so `calculate_tf "cat" "d" = 2 > 1`. -/
theorem calculate_tf_bound_cex :
    ¬ ((runOps id (fun x => x) (fun x => x)
        [Op.addDoc "d" "cat cat", Op.addDoc "d" "dog"]).calculate_tf
        "cat" "d" ≤ 1) := by
  have h : (runOps id (fun x => x) (fun x => x)
      [Op.addDoc "d" "cat cat", Op.addDoc "d" "dog"]).calculate_tf "cat" "d" =
      ((2 : Nat) : Rat) / ((1 : Nat) : Rat) := rfl
  rw [h]
  norm_num

/-- C3 (amended) — `calculate_tf` returns `0` when the document or the term
is absent and otherwise the raw count divided by the stored document length;
the bound `0 < tf ≤ 1` holds whenever the stored length agrees with the sum
of the forward entry's counts (as after indexing a document once), but a
merging re-add can break that agreement and push TF above `1`. -/
theorem calculate_tf_amended (idx : DocumentIndex) (t d : String) :
    (lookupS idx.forward_index d = none → idx.calculate_tf t d = 0) ∧
    (∀ e, lookupS idx.forward_index d = some e → lookupS e t = none →
      idx.calculate_tf t d = 0) ∧
    (∀ e c, lookupS idx.forward_index d = some e → lookupS e t = some c →
      idx.calculate_tf t d =
        (c : Rat) / (((lookupS idx.document_lengths d).getD 1 : Nat) : Rat)) ∧
    (∀ e c, lookupS idx.forward_index d = some e → lookupS e t = some c →
      1 ≤ c → lookupS idx.document_lengths d = some (sumCounts e) →
      0 < idx.calculate_tf t d ∧ idx.calculate_tf t d ≤ 1) := by
  refine ⟨?_, ?_, ?_, ?_⟩
  · intro h
    simp only [DocumentIndex.calculate_tf, h]
  · intro e he ht
    simp only [DocumentIndex.calculate_tf, he, ht]
  · intro e c he ht
    simp only [DocumentIndex.calculate_tf, he, ht]
  · intro e c he ht hc hlen
    have hcs : c ≤ sumCounts e := count_le_sumCounts ht
    have hs1 : 1 ≤ sumCounts e := le_trans hc hcs
    have htf : idx.calculate_tf t d = (c : Rat) / ((sumCounts e : Nat) : Rat) := by
      simp only [DocumentIndex.calculate_tf, he, ht, hlen, Option.getD_some]
    rw [htf]
    constructor
    · apply div_pos
      · exact_mod_cast hc
      · exact_mod_cast hs1
    · rw [div_le_one (by exact_mod_cast hs1)]
      exact_mod_cast hcs

/-- Witness for C3 (amended) at a document indexed once. -/
theorem calculate_tf_amended_witness :
    0 < (runOps id (fun x => x) (fun x => x)
        [Op.addDoc "d" "cat dog cat"]).calculate_tf "cat" "d" ∧
    (runOps id (fun x => x) (fun x => x)
        [Op.addDoc "d" "cat dog cat"]).calculate_tf "cat" "d" ≤ 1 :=
  (calculate_tf_amended (runOps id (fun x => x) (fun x => x)
      [Op.addDoc "d" "cat dog cat"]) "cat" "d").2.2.2
    [("cat", 2), ("dog", 1)] 2 (by decide) (by decide) (by decide) (by decide)

/-- C7 — cosine similarity is symmetric on dict-shaped (distinct-key)
vectors, is `0` when the vectors share no term, and is `0` when either
vector's full L2 norm is `0`. -/
theorem cosine_similarity_symm (sq : Rat → Rat) (v1 v2 : List (String × Rat))
    (h1 : NodupKeys v1) (h2 : NodupKeys v2) :
    DocumentIndex.calculate_cosine_similarity sq v1 v2 =
      DocumentIndex.calculate_cosine_similarity sq v2 v1 ∧
    ((∀ w, memS v1 w = true → memS v2 w = false) →
      DocumentIndex.calculate_cosine_similarity sq v1 v2 = 0) ∧
    (sq (v1.foldl (fun a p => a + p.2 ^ 2) 0) = 0 ∨
        sq (v2.foldl (fun a p => a + p.2 ^ 2) 0) = 0 →
      DocumentIndex.calculate_cosine_similarity sq v1 v2 = 0) := by
  have hmem : ∀ w, w ∈ (keysS v1).filter (fun w => memS v2 w) ↔
      w ∈ (keysS v2).filter (fun w => memS v1 w) := by
    intro w
    simp only [List.mem_filter, mem_keysS_iff_lookupS, memS]
    exact and_comm
  have hnil : (keysS v1).filter (fun w => memS v2 w) = [] ↔
      (keysS v2).filter (fun w => memS v1 w) = [] := by
    constructor
    · intro hn
      refine List.eq_nil_iff_forall_not_mem.mpr (fun w hw => ?_)
      have := (hmem w).mpr hw
      rw [hn] at this
      cases this
    · intro hn
      refine List.eq_nil_iff_forall_not_mem.mpr (fun w hw => ?_)
      have := (hmem w).mp hw
      rw [hn] at this
      cases this
  refine ⟨?_, ?_, ?_⟩
  · unfold DocumentIndex.calculate_cosine_similarity
    by_cases hc : (keysS v1).filter (fun w => memS v2 w) = []
    · rw [if_pos hc, if_pos (hnil.mp hc)]
    · rw [if_neg hc, if_neg (fun hcc => hc (hnil.mpr hcc))]
      have hperm : ((keysS v1).filter (fun w => memS v2 w)).Perm
          ((keysS v2).filter (fun w => memS v1 w)) :=
        (List.perm_ext_iff_of_nodup (List.Nodup.filter _ h1)
          (List.Nodup.filter _ h2)).mpr hmem
      have hdot : ((keysS v1).filter (fun w => memS v2 w)).foldl
          (fun a w => a + ((lookupS v1 w).getD 0) * ((lookupS v2 w).getD 0)) 0 =
          ((keysS v2).filter (fun w => memS v1 w)).foldl
          (fun a w => a + ((lookupS v2 w).getD 0) * ((lookupS v1 w).getD 0)) 0 := by
        rw [foldl_add_eq_sum, foldl_add_eq_sum]
        have hmapeq : ((keysS v2).filter (fun w => memS v1 w)).map
            (fun w => ((lookupS v2 w).getD 0) * ((lookupS v1 w).getD 0)) =
            ((keysS v2).filter (fun w => memS v1 w)).map
            (fun w => ((lookupS v1 w).getD 0) * ((lookupS v2 w).getD 0)) :=
          List.map_congr_left (fun w _ => mul_comm _ _)
        rw [hmapeq]
        rw [List.Perm.sum_eq (List.Perm.map _ hperm)]
      by_cases hz : sq (v1.foldl (fun a p => a + p.2 ^ 2) 0) = 0 ∨
          sq (v2.foldl (fun a p => a + p.2 ^ 2) 0) = 0
      · rw [if_pos hz, if_pos (Or.symm hz)]
      · rw [if_neg hz, if_neg (fun hzz => hz (Or.symm hzz))]
        rw [hdot, mul_comm]
  · intro hdisj
    unfold DocumentIndex.calculate_cosine_similarity
    have hc : (keysS v1).filter (fun w => memS v2 w) = [] := by
      refine List.eq_nil_iff_forall_not_mem.mpr (fun w hw => ?_)
      rcases List.mem_filter.mp hw with ⟨hw1, hw2⟩
      have hm1 : memS v1 w = true := by
        simpa [memS] using (mem_keysS_iff_lookupS v1 w).mp hw1
      rw [hdisj w hm1] at hw2
      cases hw2
    rw [if_pos hc]
  · intro hz
    unfold DocumentIndex.calculate_cosine_similarity
    by_cases hc : (keysS v1).filter (fun w => memS v2 w) = []
    · rw [if_pos hc]
    · rw [if_neg hc, if_pos hz]

/-- Witness for C7 on two concrete one-term vectors. -/
theorem cosine_similarity_symm_witness :
    DocumentIndex.calculate_cosine_similarity (fun x => x)
        [("a", 1), ("b", 2)] [("a", 3)] =
      DocumentIndex.calculate_cosine_similarity (fun x => x)
        [("a", 3)] [("a", 1), ("b", 2)] :=
  (cosine_similarity_symm (fun x => x) [("a", 1), ("b", 2)] [("a", 3)]
    (by unfold NodupKeys; decide) (by unfold NodupKeys; decide)).1

theorem insertS_ne_nil {α : Type} (m : List (String × α)) (k : String) (v : α) :
    insertS m k v ≠ [] := by
  cases m with
  | nil => simp [insertS]
  | cons p t => by_cases hp : p.1 = k <;> simp [insertS, hp]

theorem nodupKeys_nil {α : Type} : NodupKeys ([] : List (String × α)) := by
  simp [NodupKeys, keysS]

theorem nodupKeys_foldl_insertS (wc : List (String × Nat))
    (e : List (String × Nat)) (he : NodupKeys e) :
    NodupKeys (wc.foldl (fun e p => insertS e p.1 p.2) e) := by
  induction wc generalizing e with
  | nil => exact he
  | cons p t ih => exact ih _ (nodupKeys_insertS he _ _)

theorem nodupKeys_updateIndexes_inv (doc_id : String) (wc : List (String × Nat))
    (inv fwd : List (String × List (String × Nat))) (h : NodupKeys inv) :
    NodupKeys (updateIndexes doc_id wc inv fwd).1 := by
  induction wc generalizing inv fwd with
  | nil => exact h
  | cons p t ih =>
    have step : updateIndexes doc_id (p :: t) inv fwd =
        updateIndexes doc_id t
          (insertS inv p.1 (insertS ((lookupS inv p.1).getD []) doc_id p.2))
          (insertS fwd doc_id (insertS ((lookupS fwd doc_id).getD []) p.1 p.2)) := by
      simp [updateIndexes]
    rw [step]
    exact ih _ _ (nodupKeys_insertS h _ _)

theorem nodupKeys_updateIndexes_fwd (doc_id : String) (wc : List (String × Nat))
    (inv fwd : List (String × List (String × Nat))) (h : NodupKeys fwd) :
    NodupKeys (updateIndexes doc_id wc inv fwd).2 := by
  induction wc generalizing inv fwd with
  | nil => exact h
  | cons p t ih =>
    have step : updateIndexes doc_id (p :: t) inv fwd =
        updateIndexes doc_id t
          (insertS inv p.1 (insertS ((lookupS inv p.1).getD []) doc_id p.2))
          (insertS fwd doc_id (insertS ((lookupS fwd doc_id).getD []) p.1 p.2)) := by
      simp [updateIndexes]
    rw [step]
    exact ih _ _ (nodupKeys_insertS h _ _)

/-- The unfolded effect of a non-skipped `add_document`. -/
theorem add_document_eq (pp : String → String) (idx : DocumentIndex)
    (d content : String) (h : pp content ≠ "") :
    idx.add_document pp d content =
      { inverted_index := (updateIndexes d (countWords (tokenize (pp content)))
          idx.inverted_index idx.forward_index).1,
        forward_index := (updateIndexes d (countWords (tokenize (pp content)))
          idx.inverted_index idx.forward_index).2,
        document_lengths := insertS idx.document_lengths d
          (sumCounts (countWords (tokenize (pp content)))),
        idf_cache := [],
        total_documents := (updateIndexes d (countWords (tokenize (pp content)))
          idx.inverted_index idx.forward_index).2.length,
        tf_idf_weights := idx.tf_idf_weights } := by
  rw [DocumentIndex.add_document]
  simp [h]

/-- The structural invariant of the two postings views: distinct keys
everywhere, no empty postings, and the forward and inverted indexes are
mutually consistent. -/
structure IndexInv (idx : DocumentIndex) : Prop where
  nd_inv : NodupKeys idx.inverted_index
  nd_fwd : NodupKeys idx.forward_index
  nd_post : ∀ t p, lookupS idx.inverted_index t = some p → NodupKeys p
  nd_entry : ∀ d e, lookupS idx.forward_index d = some e → NodupKeys e
  nonempty_post : ∀ t p, lookupS idx.inverted_index t = some p → p ≠ []
  fwd_inv : ∀ d e t, lookupS idx.forward_index d = some e →
    (lookupS e t).isSome →
    ∃ p, lookupS idx.inverted_index t = some p ∧ (lookupS p d).isSome
  inv_fwd : ∀ t p d, lookupS idx.inverted_index t = some p →
    (lookupS p d).isSome →
    ∃ e, lookupS idx.forward_index d = some e ∧ (lookupS e t).isSome

theorem indexInv_empty : IndexInv emptyIndex := by
  constructor <;> simp [emptyIndex, NodupKeys, keysS, lookupS]

/-- `add_document` preserves the structural invariant. -/
theorem indexInv_add (pp : String → String) (idx : DocumentIndex)
    (d content : String) (h : IndexInv idx) :
    IndexInv (idx.add_document pp d content) := by
  by_cases hpp : pp content = ""
  · simpa [DocumentIndex.add_document, hpp] using h
  · rw [add_document_eq pp idx d content hpp]
    have hwc := nodupKeys_countWords (tokenize (pp content))
    constructor
    · exact nodupKeys_updateIndexes_inv _ _ _ _ h.nd_inv
    · exact nodupKeys_updateIndexes_fwd _ _ _ _ h.nd_fwd
    · -- postings keep distinct keys
      intro t p' hip
      rw [updateIndexes_inverted_lookup d _ hwc] at hip
      cases hw : lookupS (countWords (tokenize (pp content))) t with
      | some c =>
        rw [hw] at hip
        cases hip
        cases hold : lookupS idx.inverted_index t with
        | none => simpa [hold] using nodupKeys_insertS nodupKeys_nil d c
        | some P => simpa [hold] using nodupKeys_insertS (h.nd_post t P hold) d c
      | none =>
        rw [hw] at hip
        exact h.nd_post t p' hip
    · -- forward entries keep distinct keys
      intro d' e' hfe
      rw [updateIndexes_forward_lookup] at hfe
      by_cases hd : d' = d
      · rw [if_pos hd] at hfe
        by_cases hwnil : countWords (tokenize (pp content)) = []
        · rw [if_pos hwnil] at hfe
          exact h.nd_entry d e' (hd ▸ hfe)
        · rw [if_neg hwnil] at hfe
          cases hfe
          apply nodupKeys_foldl_insertS
          cases hfd : lookupS idx.forward_index d with
          | none => simpa [hfd] using nodupKeys_nil
          | some E => simpa [hfd] using h.nd_entry d E hfd
      · rw [if_neg hd] at hfe
        exact h.nd_entry d' e' hfe
    · -- no empty postings
      intro t p' hip
      rw [updateIndexes_inverted_lookup d _ hwc] at hip
      cases hw : lookupS (countWords (tokenize (pp content))) t with
      | some c =>
        rw [hw] at hip
        cases hip
        exact insertS_ne_nil _ _ _
      | none =>
        rw [hw] at hip
        exact h.nonempty_post t p' hip
    · -- forward entry terms appear in the inverted index
      intro d' e' t hfe ht
      rw [updateIndexes_forward_lookup] at hfe
      rw [updateIndexes_inverted_lookup d _ hwc]
      by_cases hd : d' = d
      · subst hd
        rw [if_pos rfl] at hfe
        by_cases hwnil : countWords (tokenize (pp content)) = []
        · rw [if_pos hwnil] at hfe
          obtain ⟨p, hp, hpd⟩ := h.fwd_inv d' e' t hfe ht
          rw [hwnil]
          exact ⟨p, by simpa [lookupS] using hp, hpd⟩
        · rw [if_neg hwnil] at hfe
          cases hfe
          rw [foldl_insertS_lookup _ hwc] at ht
          cases hw : lookupS (countWords (tokenize (pp content))) t with
          | some c =>
            exact ⟨_, rfl, by simp [lookupS_insertS_self]⟩
          | none =>
            rw [hw] at ht
            have ht' : (lookupS ((lookupS idx.forward_index d').getD []) t).isSome
                = true := ht
            cases hfd : lookupS idx.forward_index d' with
            | none =>
              rw [hfd] at ht'
              simp [lookupS] at ht'
            | some E =>
              rw [hfd] at ht'
              simp only [Option.getD_some] at ht'
              obtain ⟨p, hp, hpd⟩ := h.fwd_inv d' E t hfd ht'
              exact ⟨p, hp, hpd⟩
      · rw [if_neg hd] at hfe
        obtain ⟨p, hp, hpd⟩ := h.fwd_inv d' e' t hfe ht
        cases hw : lookupS (countWords (tokenize (pp content))) t with
        | some c =>
          refine ⟨_, rfl, ?_⟩
          rw [hp]
          simp only [Option.getD_some]
          rw [lookupS_insertS_ne _ _ hd]
          exact hpd
        | none =>
          exact ⟨p, hp, hpd⟩
    · -- inverted postings documents appear in the forward index
      intro t p' d' hip hpd
      rw [updateIndexes_inverted_lookup d _ hwc] at hip
      rw [updateIndexes_forward_lookup]
      cases hw : lookupS (countWords (tokenize (pp content))) t with
      | some c =>
        have hwne : countWords (tokenize (pp content)) ≠ [] := by
          intro hnil
          rw [hnil] at hw
          simp [lookupS] at hw
        rw [hw] at hip
        cases hip
        by_cases hd : d' = d
        · rw [if_pos hd, if_neg hwne]
          refine ⟨_, rfl, ?_⟩
          rw [foldl_insertS_lookup _ hwc, hw]
          simp
        · rw [if_neg hd]
          rw [lookupS_insertS_ne _ _ hd] at hpd
          cases hold : lookupS idx.inverted_index t with
          | none => simp [hold, lookupS] at hpd
          | some P =>
            rw [hold] at hpd
            simp only [Option.getD_some] at hpd
            exact h.inv_fwd t P d' hold hpd
      | none =>
        rw [hw] at hip
        obtain ⟨e, he, het⟩ := h.inv_fwd t p' d' hip hpd
        by_cases hd : d' = d
        · subst hd
          rw [if_pos rfl]
          by_cases hwnil : countWords (tokenize (pp content)) = []
          · rw [if_pos hwnil]
            exact ⟨e, he, het⟩
          · rw [if_neg hwnil]
            refine ⟨_, rfl, ?_⟩
            rw [foldl_insertS_lookup _ hwc, hw, he]
            simpa using het
        · rw [if_neg hd]
          exact ⟨e, he, het⟩

/-- `removeWordPosting` touches only its own word's entry. -/
theorem removeWordPosting_lookup_ne (doc_id : String)
    (inv : List (String × List (String × Nat))) (w w' : String) (h : w' ≠ w) :
    lookupS (removeWordPosting doc_id inv w) w' = lookupS inv w' := by
  unfold removeWordPosting
  cases hl : lookupS inv w with
  | none => exact lookupS_insertS_ne _ _ h
  | some p =>
    by_cases hm : memS p doc_id = true
    · simp only [hm, if_true]
      by_cases hnil : eraseS p doc_id = []
      · simp only [hnil, if_true]
        exact lookupS_eraseS_ne _ h
      · simp only [hnil, if_false]
        exact lookupS_insertS_ne _ _ h
    · simp only [Bool.not_eq_true] at hm
      simp only [hm]
      rfl

theorem removeWordPosting_lookup_self (doc_id : String)
    (inv : List (String × List (String × Nat))) (hinv : NodupKeys inv)
    (w : String) (p : List (String × Nat)) (hl : lookupS inv w = some p)
    (hm : memS p doc_id = true) :
    lookupS (removeWordPosting doc_id inv w) w =
      if eraseS p doc_id = [] then none else some (eraseS p doc_id) := by
  unfold removeWordPosting
  rw [hl]
  simp only [hm, if_true]
  by_cases hnil : eraseS p doc_id = []
  · simp only [hnil, if_true]
    exact lookupS_eraseS_self hinv w
  · simp only [hnil, if_false]
    exact lookupS_insertS_self _ _ _

theorem nodupKeys_removeWordPosting (doc_id : String)
    (inv : List (String × List (String × Nat))) (w : String)
    (h : NodupKeys inv) : NodupKeys (removeWordPosting doc_id inv w) := by
  unfold removeWordPosting
  cases hl : lookupS inv w with
  | none => exact nodupKeys_insertS h _ _
  | some p =>
    by_cases hm : memS p doc_id = true
    · simp only [hm, if_true]
      by_cases hnil : eraseS p doc_id = []
      · simp only [hnil, if_true]
        exact nodupKeys_eraseS h _
      · simp only [hnil, if_false]
        exact nodupKeys_insertS h _ _
    · simp only [Bool.not_eq_true] at hm
      simp only [hm]
      exact h

theorem nodupKeys_foldl_rwp (doc_id : String) (words : List String)
    (inv : List (String × List (String × Nat))) (h : NodupKeys inv) :
    NodupKeys (words.foldl (removeWordPosting doc_id) inv) := by
  induction words generalizing inv with
  | nil => exact h
  | cons w t ih => exact ih _ (nodupKeys_removeWordPosting doc_id inv w h)

theorem foldl_rwp_lookup_not_mem (doc_id : String) (words : List String)
    (inv : List (String × List (String × Nat))) (w' : String)
    (h : w' ∉ words) :
    lookupS (words.foldl (removeWordPosting doc_id) inv) w' = lookupS inv w' := by
  induction words generalizing inv with
  | nil => rfl
  | cons w t ih =>
    have hne : w' ≠ w := fun hh => h (hh ▸ List.mem_cons_self w t)
    have ht : w' ∉ t := fun hh => h (List.mem_cons_of_mem w hh)
    simp only [List.foldl_cons]
    rw [ih _ ht, removeWordPosting_lookup_ne doc_id inv w w' hne]

theorem foldl_rwp_lookup_mem (doc_id : String) (words : List String)
    (hnd : words.Nodup) (inv : List (String × List (String × Nat)))
    (hinv : NodupKeys inv) (w' : String) (hw : w' ∈ words)
    (p : List (String × Nat)) (hl : lookupS inv w' = some p)
    (hm : memS p doc_id = true) :
    lookupS (words.foldl (removeWordPosting doc_id) inv) w' =
      if eraseS p doc_id = [] then none else some (eraseS p doc_id) := by
  induction words generalizing inv with
  | nil => cases hw
  | cons w t ih =>
    simp only [List.nodup_cons] at hnd
    simp only [List.foldl_cons]
    by_cases hww : w' = w
    · subst hww
      rw [foldl_rwp_lookup_not_mem doc_id t _ w' hnd.1]
      exact removeWordPosting_lookup_self doc_id inv hinv w' p hl hm
    · have hwt : w' ∈ t := by
        rcases List.mem_cons.mp hw with hh | hh
        · exact absurd hh hww
        · exact hh
      refine ih hnd.2 _ (nodupKeys_removeWordPosting doc_id inv w hinv) hwt ?_
      rw [removeWordPosting_lookup_ne doc_id inv w w' hww]
      exact hl

/-- The unfolded effect of removing an indexed document. -/
theorem remove_document_eq (idx : DocumentIndex) (doc : String)
    (entry : List (String × Nat))
    (hfd : lookupS idx.forward_index doc = some entry) :
    idx.remove_document doc =
      { inverted_index := (keysS entry).foldl (removeWordPosting doc)
          idx.inverted_index,
        forward_index := eraseS idx.forward_index doc,
        document_lengths := eraseS idx.document_lengths doc,
        tf_idf_weights := eraseS idx.tf_idf_weights doc,
        idf_cache := [],
        total_documents := (eraseS idx.forward_index doc).length } := by
  unfold DocumentIndex.remove_document
  rw [hfd]

/-- `remove_document` of an unindexed document is a no-op. -/
theorem remove_document_eq_none (idx : DocumentIndex) (doc : String)
    (hfd : lookupS idx.forward_index doc = none) :
    idx.remove_document doc = idx := by
  unfold DocumentIndex.remove_document
  rw [hfd]

/-- `remove_document` preserves the structural invariant. -/
theorem indexInv_remove (idx : DocumentIndex) (doc : String)
    (h : IndexInv idx) : IndexInv (idx.remove_document doc) := by
  cases hfd : lookupS idx.forward_index doc with
  | none => rw [remove_document_eq_none idx doc hfd]; exact h
  | some entry =>
    rw [remove_document_eq idx doc entry hfd]
    have hnd_entry : (keysS entry).Nodup := h.nd_entry doc entry hfd
    have hword : ∀ w, w ∈ keysS entry →
        ∃ p, lookupS idx.inverted_index w = some p ∧ memS p doc = true := by
      intro w hw
      have hsome : (lookupS entry w).isSome :=
        (mem_keysS_iff_lookupS entry w).mp hw
      obtain ⟨p, hp, hpd⟩ := h.fwd_inv doc entry w hfd hsome
      exact ⟨p, hp, hpd⟩
    constructor
    · exact nodupKeys_foldl_rwp doc _ _ h.nd_inv
    · exact nodupKeys_eraseS h.nd_fwd doc
    · -- postings keep distinct keys
      intro t p' hip
      by_cases hmem : t ∈ keysS entry
      · obtain ⟨p, hp, hm⟩ := hword t hmem
        rw [foldl_rwp_lookup_mem doc _ hnd_entry _ h.nd_inv t hmem p hp hm]
          at hip
        by_cases hnil : eraseS p doc = []
        · rw [if_pos hnil] at hip
          cases hip
        · rw [if_neg hnil] at hip
          cases hip
          exact nodupKeys_eraseS (h.nd_post t p hp) doc
      · rw [foldl_rwp_lookup_not_mem doc _ _ t hmem] at hip
        exact h.nd_post t p' hip
    · -- forward entries keep distinct keys
      intro d' e' hfe
      by_cases hd : d' = doc
      · subst hd
        rw [lookupS_eraseS_self h.nd_fwd d'] at hfe
        cases hfe
      · rw [lookupS_eraseS_ne _ hd] at hfe
        exact h.nd_entry d' e' hfe
    · -- no empty postings
      intro t p' hip
      by_cases hmem : t ∈ keysS entry
      · obtain ⟨p, hp, hm⟩ := hword t hmem
        rw [foldl_rwp_lookup_mem doc _ hnd_entry _ h.nd_inv t hmem p hp hm]
          at hip
        by_cases hnil : eraseS p doc = []
        · rw [if_pos hnil] at hip
          cases hip
        · rw [if_neg hnil] at hip
          cases hip
          exact hnil
      · rw [foldl_rwp_lookup_not_mem doc _ _ t hmem] at hip
        exact h.nonempty_post t p' hip
    · -- forward entry terms still appear in the inverted index
      intro d' e' t hfe ht
      by_cases hd : d' = doc
      · subst hd
        rw [lookupS_eraseS_self h.nd_fwd d'] at hfe
        cases hfe
      · rw [lookupS_eraseS_ne _ hd] at hfe
        obtain ⟨p, hp, hpd⟩ := h.fwd_inv d' e' t hfe ht
        by_cases hmem : t ∈ keysS entry
        · obtain ⟨P, hP, hPm⟩ := hword t hmem
          have hPp : P = p := by
            have := hP.symm.trans hp
            exact Option.some.inj this
          subst hPp
          have hlk : lookupS (eraseS P doc) d' = lookupS P d' :=
            lookupS_eraseS_ne _ hd
          have hnil : eraseS P doc ≠ [] := by
            intro hnil
            rw [hnil] at hlk
            rw [← hlk] at hpd
            simp [lookupS] at hpd
          rw [foldl_rwp_lookup_mem doc _ hnd_entry _ h.nd_inv t hmem P hP hPm]
          rw [if_neg hnil]
          refine ⟨_, rfl, ?_⟩
          rw [hlk]
          exact hpd
        · rw [foldl_rwp_lookup_not_mem doc _ _ t hmem]
          exact ⟨p, hp, hpd⟩
    · -- inverted postings documents still appear in the forward index
      intro t p' d' hip hpd
      by_cases hmem : t ∈ keysS entry
      · obtain ⟨P, hP, hPm⟩ := hword t hmem
        rw [foldl_rwp_lookup_mem doc _ hnd_entry _ h.nd_inv t hmem P hP hPm]
          at hip
        by_cases hnil : eraseS P doc = []
        · rw [if_pos hnil] at hip
          cases hip
        · rw [if_neg hnil] at hip
          cases hip
          have hd : d' ≠ doc := by
            intro hh
            subst hh
            rw [lookupS_eraseS_self (h.nd_post t P hP) d'] at hpd
            simp at hpd
          rw [lookupS_eraseS_ne _ hd] at hpd
          obtain ⟨e, he, het⟩ := h.inv_fwd t P d' hP hpd
          refine ⟨e, ?_, het⟩
          rw [lookupS_eraseS_ne _ hd]
          exact he
      · rw [foldl_rwp_lookup_not_mem doc _ _ t hmem] at hip
        obtain ⟨e, he, het⟩ := h.inv_fwd t p' d' hip hpd
        have hd : d' ≠ doc := by
          intro hh
          subst hh
          have hee : e = entry := Option.some.inj (he.symm.trans hfd)
          subst hee
          exact hmem ((mem_keysS_iff_lookupS e t).mpr het)
        refine ⟨e, ?_, het⟩
        rw [lookupS_eraseS_ne _ hd]
        exact he

theorem sameIndexes_refl (idx : DocumentIndex) : SameIndexes idx idx :=
  ⟨rfl, rfl, rfl, rfl, rfl⟩

theorem sameIndexes_trans {a b c : DocumentIndex} (h1 : SameIndexes a b)
    (h2 : SameIndexes b c) : SameIndexes a c :=
  ⟨h2.1.trans h1.1, h2.2.1.trans h1.2.1, h2.2.2.1.trans h1.2.2.1,
   h2.2.2.2.1.trans h1.2.2.2.1, h2.2.2.2.2.trans h1.2.2.2.2⟩

theorem idf_spec_congr (lg : Rat → Rat) {idx idx' : DocumentIndex}
    (h : SameIndexes idx idx') (w : String) :
    idf_spec lg idx' w = idf_spec lg idx w := by
  unfold idf_spec
  rw [h.1, h.2.2.1]

/-- The structural invariant only concerns the two postings views, so it
transfers across cache-only state changes. -/
theorem indexInv_congr {idx idx' : DocumentIndex} (hs : SameIndexes idx idx')
    (h : IndexInv idx) : IndexInv idx' := by
  constructor
  · rw [hs.1]
    exact h.nd_inv
  · rw [hs.2.1]
    exact h.nd_fwd
  · intro t p hp
    rw [hs.1] at hp
    exact h.nd_post t p hp
  · intro d e he
    rw [hs.2.1] at he
    exact h.nd_entry d e he
  · intro t p hp
    rw [hs.1] at hp
    exact h.nonempty_post t p hp
  · intro d e t he ht
    rw [hs.2.1] at he
    rw [hs.1]
    exact h.fwd_inv d e t he ht
  · intro t p d hp hpd
    rw [hs.1] at hp
    rw [hs.2.1]
    exact h.inv_fwd t p d hp hpd

/-- A cache-only step: the postings views are untouched and cache
correctness is preserved. -/
def StepOK (lg : Rat → Rat) (idx idx' : DocumentIndex) : Prop :=
  SameIndexes idx idx' ∧ (CacheOK lg idx → CacheOK lg idx')

theorem stepOK_refl (lg : Rat → Rat) (idx : DocumentIndex) : StepOK lg idx idx :=
  ⟨sameIndexes_refl idx, fun h => h⟩

theorem stepOK_trans {lg : Rat → Rat} {a b c : DocumentIndex}
    (h1 : StepOK lg a b) (h2 : StepOK lg b c) : StepOK lg a c :=
  ⟨sameIndexes_trans h1.1 h2.1, fun h => h2.2 (h1.2 h)⟩

theorem stepOK_calculate_idf (lg : Rat → Rat) (idx : DocumentIndex)
    (w : String) : StepOK lg idx (idx.calculate_idf lg w).2 := by
  unfold DocumentIndex.calculate_idf
  cases hc : lookupS idx.idf_cache w with
  | some v => exact stepOK_refl lg idx
  | none =>
    cases hi : lookupS idx.inverted_index w with
    | none => exact stepOK_refl lg idx
    | some posting =>
      refine ⟨⟨rfl, rfl, rfl, rfl, rfl⟩, ?_⟩
      intro hok w' v' hl'
      rw [idf_spec_congr lg ⟨rfl, rfl, rfl, rfl, rfl⟩ w']
      by_cases hw : w' = w
      · subst hw
        rw [lookupS_insertS_self] at hl'
        cases hl'
        unfold idf_spec
        rw [hi]
      · rw [lookupS_insertS_ne _ _ hw] at hl'
        exact hok w' v' hl'

theorem stepOK_calculate_tf_idf (lg : Rat → Rat) (idx : DocumentIndex)
    (w d : String) : StepOK lg idx (idx.calculate_tf_idf lg w d).2 :=
  stepOK_calculate_idf lg idx w

theorem stepOK_docvec_fold (lg : Rat → Rat) (d : String)
    (entry : List (String × Nat)) (v : List (String × Rat))
    (j : DocumentIndex) :
    StepOK lg j (entry.foldl
      (fun acc p =>
        let r := acc.2.calculate_tf_idf lg p.1 d
        (insertS acc.1 p.1 r.1, r.2)) (v, j)).2 := by
  induction entry generalizing v j with
  | nil => exact stepOK_refl lg j
  | cons p t ih =>
    simp only [List.foldl_cons]
    exact stepOK_trans (stepOK_calculate_tf_idf lg j p.1 d) (ih _ _)

theorem stepOK_get_document_vector (lg : Rat → Rat) (idx : DocumentIndex)
    (d : String) : StepOK lg idx (idx.get_document_vector lg d).2 := by
  unfold DocumentIndex.get_document_vector
  cases hf : lookupS idx.forward_index d with
  | none => exact stepOK_refl lg idx
  | some entry => exact stepOK_docvec_fold lg d entry [] idx

theorem stepOK_queryvec_fold (lg : Rat → Rat) (wc : List (String × Nat))
    (v : List (String × Rat)) (j : DocumentIndex) :
    StepOK lg j (wc.foldl
      (fun acc p =>
        let r := acc.2.calculate_idf lg p.1
        (insertS acc.1 p.1 ((p.2 : Rat) * r.1), r.2)) (v, j)).2 := by
  induction wc generalizing v j with
  | nil => exact stepOK_refl lg j
  | cons p t ih =>
    simp only [List.foldl_cons]
    exact stepOK_trans (stepOK_calculate_idf lg j p.1) (ih _ _)

theorem stepOK_get_query_vector (pp : String → String) (lg : Rat → Rat)
    (idx : DocumentIndex) (q : String) :
    StepOK lg idx (idx.get_query_vector pp lg q).2 := by
  unfold DocumentIndex.get_query_vector
  by_cases hq : pp q = ""
  · simp only [hq, if_true]
    exact stepOK_refl lg idx
  · simp only [hq, if_false]
    exact stepOK_queryvec_fold lg _ [] idx

theorem stepOK_search_fold (lg sq : Rat → Rat) (qv : List (String × Rat))
    (docs : List (String × List (String × Nat)))
    (acc : List (String × Rat)) (j : DocumentIndex) :
    StepOK lg j (docs.foldl
      (fun acc p =>
        let dv := acc.2.get_document_vector lg p.1
        let s := DocumentIndex.calculate_cosine_similarity sq qv dv.1
        (if 0 < s then acc.1 ++ [(p.1, s)] else acc.1, dv.2)) (acc, j)).2 := by
  induction docs generalizing acc j with
  | nil => exact stepOK_refl lg j
  | cons p t ih =>
    simp only [List.foldl_cons]
    exact stepOK_trans (stepOK_get_document_vector lg j p.1) (ih _ _)

theorem stepOK_search (pp : String → String) (lg sq : Rat → Rat)
    (idx : DocumentIndex) (q : String) (k : Nat) :
    StepOK lg idx (idx.search pp lg sq q k).2 := by
  unfold DocumentIndex.search
  by_cases hg : q = "" ∨ idx.total_documents = 0
  · simp only [hg, if_true]
    exact stepOK_refl lg idx
  · simp only [hg, if_false]
    by_cases hq : (idx.get_query_vector pp lg q).1 = []
    · simp only [hq, if_true]
      exact stepOK_get_query_vector pp lg idx q
    · simp only [hq, if_false]
      exact stepOK_trans (stepOK_get_query_vector pp lg idx q)
        (stepOK_search_fold lg sq _ _ [] _)

theorem stepOK_get_document_keywords (lg : Rat → Rat) (idx : DocumentIndex)
    (d : String) (k : Nat) :
    StepOK lg idx (idx.get_document_keywords lg d k).2 := by
  unfold DocumentIndex.get_document_keywords
  cases hf : lookupS idx.forward_index d with
  | none => exact stepOK_refl lg idx
  | some entry => exact stepOK_get_document_vector lg idx d

theorem cacheOK_add (pp : String → String) (lg : Rat → Rat)
    (idx : DocumentIndex) (d content : String) (h : CacheOK lg idx) :
    CacheOK lg (idx.add_document pp d content) := by
  by_cases hpp : pp content = ""
  · simpa [DocumentIndex.add_document, hpp] using h
  · rw [add_document_eq pp idx d content hpp]
    intro w v hl
    simp [lookupS] at hl

theorem cacheOK_remove (lg : Rat → Rat) (idx : DocumentIndex) (doc : String)
    (h : CacheOK lg idx) : CacheOK lg (idx.remove_document doc) := by
  cases hfd : lookupS idx.forward_index doc with
  | none =>
    rw [remove_document_eq_none idx doc hfd]
    exact h
  | some entry =>
    rw [remove_document_eq idx doc entry hfd]
    intro w v hl
    simp [lookupS] at hl

/-- Every reachable state satisfies both the structural invariant and cache
correctness. -/
def StateInv (lg : Rat → Rat) (idx : DocumentIndex) : Prop :=
  IndexInv idx ∧ CacheOK lg idx

theorem stateInv_applyOp (pp : String → String) (lg sq : Rat → Rat)
    (idx : DocumentIndex) (op : Op) (h : StateInv lg idx) :
    StateInv lg (applyOp pp lg sq idx op) := by
  cases op with
  | addDoc d c =>
    exact ⟨indexInv_add pp idx d c h.1, cacheOK_add pp lg idx d c h.2⟩
  | removeDoc d =>
    exact ⟨indexInv_remove idx d h.1, cacheOK_remove lg idx d h.2⟩
  | idfOp w =>
    have hs := stepOK_calculate_idf lg idx w
    exact ⟨indexInv_congr hs.1 h.1, hs.2 h.2⟩
  | tfIdfOp w d =>
    have hs := stepOK_calculate_tf_idf lg idx w d
    exact ⟨indexInv_congr hs.1 h.1, hs.2 h.2⟩
  | docVectorOp d =>
    have hs := stepOK_get_document_vector lg idx d
    exact ⟨indexInv_congr hs.1 h.1, hs.2 h.2⟩
  | queryVectorOp q =>
    have hs := stepOK_get_query_vector pp lg idx q
    exact ⟨indexInv_congr hs.1 h.1, hs.2 h.2⟩
  | searchOp q k =>
    have hs := stepOK_search pp lg sq idx q k
    exact ⟨indexInv_congr hs.1 h.1, hs.2 h.2⟩
  | keywordsOp d k =>
    have hs := stepOK_get_document_keywords lg idx d k
    exact ⟨indexInv_congr hs.1 h.1, hs.2 h.2⟩

theorem stateInv_runOps (pp : String → String) (lg sq : Rat → Rat)
    (ops : List Op) : StateInv lg (runOps pp lg sq ops) := by
  have main : ∀ (l : List Op) (idx : DocumentIndex), StateInv lg idx →
      StateInv lg (l.foldl (applyOp pp lg sq) idx) := by
    intro l
    induction l with
    | nil => intro idx h; exact h
    | cons op t ih =>
      intro idx h
      exact ih _ (stateInv_applyOp pp lg sq idx op h)
  refine main ops emptyIndex ⟨indexInv_empty, ?_⟩
  intro w v hl
  simp [emptyIndex, lookupS] at hl

/-- C1 — after any sequence of public calls starting from the empty index,
every term of the inverted index has a non-empty postings map, and the key
set of each indexed document's forward entry is exactly the set of terms
whose postings contain the document. -/
theorem index_consistency (pp : String → String) (lg sq : Rat → Rat)
    (ops : List Op) :
    (∀ t p, lookupS (runOps pp lg sq ops).inverted_index t = some p →
      p ≠ []) ∧
    (∀ d e, lookupS (runOps pp lg sq ops).forward_index d = some e →
      ∀ t, (lookupS e t).isSome = true ↔
        ∃ p, lookupS (runOps pp lg sq ops).inverted_index t = some p ∧
          (lookupS p d).isSome = true) := by
  obtain ⟨hinv, _⟩ := stateInv_runOps pp lg sq ops
  refine ⟨hinv.nonempty_post, ?_⟩
  intro d e hfe t
  constructor
  · intro ht
    exact hinv.fwd_inv d e t hfe ht
  · rintro ⟨p, hp, hpd⟩
    obtain ⟨e', he', het'⟩ := hinv.inv_fwd t p d hp hpd
    have hee : e' = e := Option.some.inj (he'.symm.trans hfe)
    rw [hee] at het'
    exact het'

/-- Witness for C1 on a concrete three-call trace. -/
theorem index_consistency_witness :
    ∃ p, lookupS (runOps id (fun x => x) (fun x => x)
        [Op.addDoc "d1" "cat dog cat", Op.addDoc "d2" "dog bird",
         Op.removeDoc "d1"]).inverted_index "dog" = some p ∧
      (lookupS p "d2").isSome = true := by
  have h := (index_consistency id (fun x => x) (fun x => x)
      [Op.addDoc "d1" "cat dog cat", Op.addDoc "d2" "dog bird",
       Op.removeDoc "d1"]).2 "d2" [("dog", 1), ("bird", 1)] (by decide) "dog"
  exact h.mp (by decide)

theorem calculate_idf_fresh_of_cacheOK (lg : Rat → Rat) (idx : DocumentIndex)
    (h : CacheOK lg idx) (w : String) :
    (idx.calculate_idf lg w).1 = idf_spec lg idx w := by
  unfold DocumentIndex.calculate_idf
  cases hc : lookupS idx.idf_cache w with
  | some v => exact h w v hc
  | none =>
    cases hi : lookupS idx.inverted_index w with
    | none =>
      unfold idf_spec
      rw [hi]
    | some posting =>
      unfold idf_spec
      rw [hi]

/-- C4 — on every reachable state, `calculate_idf` (cache included) returns
exactly the IDF recomputed from scratch: `0` for an unknown term, otherwise
`lg (total_documents / doc_frequency)`; the cache never serves a stale
value. -/
theorem idf_cache_fresh (pp : String → String) (lg sq : Rat → Rat)
    (ops : List Op) (w : String) :
    ((runOps pp lg sq ops).calculate_idf lg w).1 =
      idf_spec lg (runOps pp lg sq ops) w :=
  calculate_idf_fresh_of_cacheOK lg _ (stateInv_runOps pp lg sq ops).2 w

theorem lookupS_append_of_none {α : Type} {a : List (String × α)}
    (b : List (String × α)) {k : String} (h : lookupS a k = none) :
    lookupS (a ++ b) k = lookupS b k := by
  induction a with
  | nil => rfl
  | cons p t ih =>
    by_cases hp : p.1 = k
    · simp [lookupS, hp] at h
    · simp only [lookupS, hp, if_false] at h
      simp only [List.cons_append, lookupS, hp, if_false]
      exact ih h

theorem calculate_tf_congr {idx j : DocumentIndex} (h : SameIndexes idx j)
    (w d : String) : j.calculate_tf w d = idx.calculate_tf w d := by
  unfold DocumentIndex.calculate_tf
  rw [h.2.1, h.2.2.2.1]

theorem calculate_tf_idf_val (lg : Rat → Rat) {idx j : DocumentIndex}
    (hok : CacheOK lg j) (hs : SameIndexes idx j) (w d : String) :
    (j.calculate_tf_idf lg w d).1 = tf_idf_spec lg idx w d := by
  show j.calculate_tf w d * (DocumentIndex.calculate_idf lg j w).1 =
    idx.calculate_tf w d * idf_spec lg idx w
  rw [calculate_idf_fresh_of_cacheOK lg j hok, calculate_tf_congr hs,
    idf_spec_congr lg hs]

theorem docvec_fold_val (lg : Rat → Rat) {idx : DocumentIndex} (d : String)
    (entry : List (String × Nat)) :
    NodupKeys entry → ∀ (v : List (String × Rat)) (j : DocumentIndex),
    CacheOK lg j → SameIndexes idx j →
    (∀ w, w ∈ keysS entry → lookupS v w = none) →
    (entry.foldl (fun acc p =>
        let r := acc.2.calculate_tf_idf lg p.1 d
        (insertS acc.1 p.1 r.1, r.2)) (v, j)).1 =
      v ++ entry.map (fun p => (p.1, tf_idf_spec lg idx p.1 d)) := by
  induction entry with
  | nil =>
    intro _ v j _ _ _
    simp
  | cons p t ih =>
    intro hnd v j hok hs hdisj
    obtain ⟨hnm, hnd'⟩ := nodupKeys_cons hnd
    simp only [List.foldl_cons]
    have hval : (j.calculate_tf_idf lg p.1 d).1 = tf_idf_spec lg idx p.1 d :=
      calculate_tf_idf_val lg hok hs p.1 d
    have hstep := stepOK_calculate_tf_idf lg j p.1 d
    have hv' : insertS v p.1 (j.calculate_tf_idf lg p.1 d).1 =
        v ++ [(p.1, tf_idf_spec lg idx p.1 d)] := by
      rw [insertS_of_lookupS_none (hdisj p.1 (by simp [keysS]))]
      rw [hval]
    have hdisj' : ∀ w, w ∈ keysS t →
        lookupS (v ++ [(p.1, tf_idf_spec lg idx p.1 d)]) w = none := by
      intro w hw
      have hne : p.1 ≠ w := fun hh => hnm (hh ▸ hw)
      have hwc : w ∈ keysS (p :: t) := by
        simp only [keysS, List.map_cons, List.mem_cons]
        exact Or.inr (by simpa [keysS] using hw)
      rw [lookupS_append_of_none _ (hdisj w hwc)]
      simp [lookupS, hne]
    rw [hv']
    rw [ih hnd' _ _ (hstep.2 hok) (sameIndexes_trans hs hstep.1) hdisj']
    simp

theorem get_document_vector_val (lg : Rat → Rat) {idx j : DocumentIndex}
    (hok : CacheOK lg j) (hs : SameIndexes idx j)
    (hnd : ∀ d e, lookupS idx.forward_index d = some e → NodupKeys e)
    (d : String) :
    (j.get_document_vector lg d).1 = document_vector_spec lg idx d := by
  unfold DocumentIndex.get_document_vector document_vector_spec
  rw [hs.2.1]
  cases hf : lookupS idx.forward_index d with
  | none => rfl
  | some entry =>
    simpa using docvec_fold_val lg d entry (hnd d entry hf) [] j hok hs
      (fun w _ => rfl)

theorem queryvec_fold_val (lg : Rat → Rat) {idx : DocumentIndex}
    (wc : List (String × Nat)) :
    NodupKeys wc → ∀ (v : List (String × Rat)) (j : DocumentIndex),
    CacheOK lg j → SameIndexes idx j →
    (∀ w, w ∈ keysS wc → lookupS v w = none) →
    (wc.foldl (fun acc p =>
        let r := acc.2.calculate_idf lg p.1
        (insertS acc.1 p.1 ((p.2 : Rat) * r.1), r.2)) (v, j)).1 =
      v ++ wc.map (fun p => (p.1, (p.2 : Rat) * idf_spec lg idx p.1)) := by
  induction wc with
  | nil =>
    intro _ v j _ _ _
    simp
  | cons p t ih =>
    intro hnd v j hok hs hdisj
    obtain ⟨hnm, hnd'⟩ := nodupKeys_cons hnd
    simp only [List.foldl_cons]
    have hval : (j.calculate_idf lg p.1).1 = idf_spec lg idx p.1 := by
      rw [calculate_idf_fresh_of_cacheOK lg j hok, idf_spec_congr lg hs]
    have hstep := stepOK_calculate_idf lg j p.1
    have hv' : insertS v p.1 ((p.2 : Rat) * (j.calculate_idf lg p.1).1) =
        v ++ [(p.1, (p.2 : Rat) * idf_spec lg idx p.1)] := by
      rw [insertS_of_lookupS_none (hdisj p.1 (by simp [keysS]))]
      rw [hval]
    have hdisj' : ∀ w, w ∈ keysS t →
        lookupS (v ++ [(p.1, (p.2 : Rat) * idf_spec lg idx p.1)]) w = none := by
      intro w hw
      have hne : p.1 ≠ w := fun hh => hnm (hh ▸ hw)
      have hwc : w ∈ keysS (p :: t) := by
        simp only [keysS, List.map_cons, List.mem_cons]
        exact Or.inr (by simpa [keysS] using hw)
      rw [lookupS_append_of_none _ (hdisj w hwc)]
      simp [lookupS, hne]
    rw [hv']
    rw [ih hnd' _ _ (hstep.2 hok) (sameIndexes_trans hs hstep.1) hdisj']
    simp

theorem get_query_vector_val (pp : String → String) (lg : Rat → Rat)
    (idx : DocumentIndex) (hok : CacheOK lg idx) (q : String) :
    (idx.get_query_vector pp lg q).1 = query_vector_spec pp lg idx q := by
  unfold DocumentIndex.get_query_vector query_vector_spec
  by_cases hq : pp q = ""
  · simp [hq]
  · simp only [hq, if_false]
    simpa using queryvec_fold_val lg (countWords (tokenize (pp q)))
      (nodupKeys_countWords _) [] idx hok (sameIndexes_refl idx)
      (fun w _ => rfl)

theorem insertDesc_perm (x : String × Rat) (l : List (String × Rat)) :
    (insertDesc x l).Perm (x :: l) := by
  induction l with
  | nil => exact List.Perm.refl _
  | cons y t ih =>
    unfold insertDesc
    by_cases h : y.2 < x.2
    · simp only [h, if_true]
      exact List.Perm.refl _
    · simp only [h, if_false]
      exact (List.Perm.cons y ih).trans (List.Perm.swap x y t)

theorem sortDesc_perm (l : List (String × Rat)) : (sortDesc l).Perm l := by
  have main : ∀ (l acc : List (String × Rat)),
      (l.foldl (fun a x => insertDesc x a) acc).Perm (l ++ acc) := by
    intro l
    induction l with
    | nil => intro acc; simp
    | cons x t ih =>
      intro acc
      simp only [List.foldl_cons, List.cons_append]
      refine (ih _).trans ?_
      refine (List.Perm.append_left t (insertDesc_perm x acc)).trans ?_
      exact List.perm_middle
  simpa [sortDesc] using main l []

theorem pairwise_insertDesc (x : String × Rat) (l : List (String × Rat))
    (h : List.Pairwise (fun a b : String × Rat => b.2 ≤ a.2) l) :
    List.Pairwise (fun a b : String × Rat => b.2 ≤ a.2) (insertDesc x l) := by
  induction l with
  | nil => simp [insertDesc]
  | cons y t ih =>
    rcases List.pairwise_cons.mp h with ⟨hy, ht⟩
    unfold insertDesc
    by_cases hc : y.2 < x.2
    · simp only [hc, if_true]
      refine List.pairwise_cons.mpr ⟨?_, h⟩
      intro z hz
      rcases List.mem_cons.mp hz with hz | hz
      · rw [hz]
        exact le_of_lt hc
      · exact le_trans (hy z hz) (le_of_lt hc)
    · simp only [hc, if_false]
      refine List.pairwise_cons.mpr ⟨?_, ih ht⟩
      intro z hz
      rcases List.mem_cons.mp ((insertDesc_perm x t).mem_iff.mp hz) with hz | hz
      · rw [hz]
        exact le_of_not_lt hc
      · exact hy z hz

theorem sortDesc_pairwise (l : List (String × Rat)) :
    List.Pairwise (fun a b : String × Rat => b.2 ≤ a.2) (sortDesc l) := by
  have main : ∀ (l acc : List (String × Rat)),
      List.Pairwise (fun a b : String × Rat => b.2 ≤ a.2) acc →
      List.Pairwise (fun a b : String × Rat => b.2 ≤ a.2)
        (l.foldl (fun a x => insertDesc x a) acc) := by
    intro l
    induction l with
    | nil => intro acc hacc; exact hacc
    | cons x t ih =>
      intro acc hacc
      exact ih _ (pairwise_insertDesc x acc hacc)
  exact main l [] (by simp)

theorem search_fold_val (lg sq : Rat → Rat) {idx : DocumentIndex}
    (qv : List (String × Rat))
    (hnd : ∀ d e, lookupS idx.forward_index d = some e → NodupKeys e) :
    ∀ (docs : List (String × List (String × Nat)))
      (acc : List (String × Rat)) (j : DocumentIndex),
    CacheOK lg j → SameIndexes idx j →
    (docs.foldl (fun acc p =>
        let dv := acc.2.get_document_vector lg p.1
        let s := DocumentIndex.calculate_cosine_similarity sq qv dv.1
        (if 0 < s then acc.1 ++ [(p.1, s)] else acc.1, dv.2)) (acc, j)).1 =
      acc ++ docs.filterMap (fun p =>
        let s := DocumentIndex.calculate_cosine_similarity sq qv
          (document_vector_spec lg idx p.1)
        if 0 < s then some (p.1, s) else none) := by
  intro docs
  induction docs with
  | nil =>
    intro acc j _ _
    simp
  | cons p t ih =>
    intro acc j hok hs
    have hdv : (j.get_document_vector lg p.1).1 =
        document_vector_spec lg idx p.1 :=
      get_document_vector_val lg hok hs hnd p.1
    have hstep := stepOK_get_document_vector lg j p.1
    simp only [List.foldl_cons, List.filterMap_cons, hdv]
    rw [ih _ _ (hstep.2 hok) (sameIndexes_trans hs hstep.1)]
    by_cases hpos : 0 < DocumentIndex.calculate_cosine_similarity sq qv
        (document_vector_spec lg idx p.1)
    · simp [hpos]
    · simp [hpos]

theorem mem_search_candidates (pp : String → String) (lg sq : Rat → Rat)
    (idx : DocumentIndex) (q d : String) (s : Rat) :
    (d, s) ∈ search_candidates pp lg sq idx q ↔
      ((lookupS idx.forward_index d).isSome = true ∧
        s = similarity_spec pp lg sq idx q d ∧ 0 < s) := by
  unfold search_candidates
  rw [List.mem_filterMap]
  constructor
  · rintro ⟨p, hp, hf⟩
    by_cases hpos : 0 < similarity_spec pp lg sq idx q p.1
    · simp only [hpos, if_true] at hf
      rcases Prod.mk.injEq .. ▸ Option.some.inj hf with h
      obtain ⟨hd, hseq⟩ := Prod.mk.injEq .. |>.mp (Option.some.inj hf)
      subst hd
      refine ⟨?_, hseq.symm, hseq ▸ hpos⟩
      exact (mem_keysS_iff_lookupS idx.forward_index p.1).mp
        (List.mem_map.mpr ⟨p, hp, rfl⟩)
    · simp only [hpos, if_false] at hf
      cases hf
  · rintro ⟨hsome, hseq, hpos⟩
    cases hl : lookupS idx.forward_index d with
    | none => rw [hl] at hsome; cases hsome
    | some e =>
      refine ⟨(d, e), lookupS_mem hl, ?_⟩
      have hpos' : 0 < similarity_spec pp lg sq idx q d := hseq ▸ hpos
      simp only [hpos', if_true]
      rw [hseq]

/-- C5 — the Index Engine's `search` returns `[]` for an empty query, an
empty corpus, or a query whose vector is empty (as for a blank query);
otherwise it keeps exactly the indexed documents with strictly positive
similarity, sorts them by score descending, and truncates to at most
`top_k` entries. -/
theorem search_characterization (pp : String → String) (lg sq : Rat → Rat)
    (idx : DocumentIndex) (q : String) (k : Nat) (h : StateInv lg idx) :
    ((idx.search pp lg sq q k).1 =
      if q = "" ∨ idx.total_documents = 0 ∨ query_vector_spec pp lg idx q = []
      then []
      else (sortDesc (search_candidates pp lg sq idx q)).take k) ∧
    (idx.search pp lg sq q k).1.length ≤ k ∧
    List.Pairwise (fun a b : String × Rat => b.2 ≤ a.2)
      (idx.search pp lg sq q k).1 ∧
    (∀ r ∈ (idx.search pp lg sq q k).1,
      (lookupS idx.forward_index r.1).isSome = true ∧
      r.2 = similarity_spec pp lg sq idx q r.1 ∧ 0 < r.2) ∧
    (∀ d s, (d, s) ∈ search_candidates pp lg sq idx q ↔
      ((lookupS idx.forward_index d).isSome = true ∧
        s = similarity_spec pp lg sq idx q d ∧ 0 < s)) := by
  have hmain : (idx.search pp lg sq q k).1 =
      if q = "" ∨ idx.total_documents = 0 ∨ query_vector_spec pp lg idx q = []
      then []
      else (sortDesc (search_candidates pp lg sq idx q)).take k := by
    unfold DocumentIndex.search
    by_cases hg : q = "" ∨ idx.total_documents = 0
    · rcases hg with hg | hg <;> simp [hg]
    · rcases not_or.mp hg with ⟨h1, h2⟩
      simp only [hg, if_false]
      have hqv : (idx.get_query_vector pp lg q).1 =
          query_vector_spec pp lg idx q :=
        get_query_vector_val pp lg idx h.2 q
      have hstep := stepOK_get_query_vector pp lg idx q
      by_cases hq : query_vector_spec pp lg idx q = []
      · simp [hqv, hq, h1, h2]
      · simp only [hqv, hq, if_false, h1, h2, false_or]
        rw [hstep.1.2.1]
        rw [search_fold_val lg sq _ h.1.nd_entry idx.forward_index []
          _ (hstep.2 h.2) hstep.1]
        simp only [List.nil_append]
        rfl
  refine ⟨hmain, ?_, ?_, ?_, mem_search_candidates pp lg sq idx q⟩
  · rw [hmain]
    split
    · simp
    · exact List.length_take_le k _
  · rw [hmain]
    split
    · simp
    · exact List.Pairwise.sublist (List.take_sublist k _) (sortDesc_pairwise _)
  · intro r hr
    rw [hmain] at hr
    split at hr
    · cases hr
    · have hr1 : r ∈ sortDesc (search_candidates pp lg sq idx q) :=
        List.mem_of_mem_take hr
      have hr2 : r ∈ search_candidates pp lg sq idx q :=
        (sortDesc_perm _).mem_iff.mp hr1
      exact (mem_search_candidates pp lg sq idx q r.1 r.2).mp hr2

/-- Witness for C5 on a concrete one-document index. -/
theorem search_characterization_witness :
    ((runOps id (fun x => x) (fun x => x)
        [Op.addDoc "d1" "cat"]).search id (fun x => x) (fun x => x)
        "cat" 5).1.length ≤ 5 :=
  (search_characterization id (fun x => x) (fun x => x)
    (runOps id (fun x => x) (fun x => x) [Op.addDoc "d1" "cat"]) "cat" 5
    (stateInv_runOps id (fun x => x) (fun x => x)
      [Op.addDoc "d1" "cat"])).2.1

theorem collectResults_length (documents : List (String × Document))
    (qkw : List String) (ms : Rat) (k : Nat) :
    ∀ (hits : List (String × Rat)) (acc : List SearchResult),
    acc.length < k → (collectResults documents qkw ms k hits acc).length ≤ k := by
  intro hits
  induction hits with
  | nil =>
    intro acc hacc
    exact le_of_lt hacc
  | cons p rest ih =>
    intro acc hacc
    unfold collectResults
    by_cases hms : p.2 < ms
    · simp only [hms, if_true]
      exact ih acc hacc
    · simp only [hms, if_false]
      cases hdoc : lookupS documents p.1 with
      | none => exact ih acc hacc
      | some doc =>
        by_cases hstop : k ≤ (acc ++
            [(⟨doc, p.2, find_matched_keywords doc.processed_content qkw⟩ :
              SearchResult)]).length
        · simp only [hstop, if_true]
          simpa using hacc
        · simp only [hstop, if_false]
          refine ih _ ?_
          simpa using lt_of_not_le hstop

theorem collectResults_mem (documents : List (String × Document))
    (qkw : List String) (ms : Rat) (k : Nat) :
    ∀ (hits : List (String × Rat)) (acc : List SearchResult)
      (r : SearchResult), r ∈ collectResults documents qkw ms k hits acc →
    r ∈ acc ∨ (ms ≤ r.score ∧ ∃ d s, (d, s) ∈ hits ∧
      lookupS documents d = some r.document ∧ r.score = s ∧
      r.matched_keywords =
        find_matched_keywords r.document.processed_content qkw) := by
  intro hits
  induction hits with
  | nil =>
    intro acc r hr
    exact Or.inl hr
  | cons p rest ih =>
    intro acc r hr
    unfold collectResults at hr
    by_cases hms : p.2 < ms
    · simp only [hms, if_true] at hr
      rcases ih acc r hr with h | ⟨h1, d, s, h2, h3⟩
      · exact Or.inl h
      · exact Or.inr ⟨h1, d, s, List.mem_cons_of_mem p h2, h3⟩
    · simp only [hms, if_false] at hr
      cases hdoc : lookupS documents p.1 with
      | none =>
        rw [hdoc] at hr
        rcases ih acc r hr with h | ⟨h1, d, s, h2, h3⟩
        · exact Or.inl h
        · exact Or.inr ⟨h1, d, s, List.mem_cons_of_mem p h2, h3⟩
      | some doc =>
        rw [hdoc] at hr
        have hres : r = (⟨doc, p.2,
            find_matched_keywords doc.processed_content qkw⟩ : SearchResult) →
            ms ≤ r.score ∧ ∃ d s, (d, s) ∈ p :: rest ∧
              lookupS documents d = some r.document ∧ r.score = s ∧
              r.matched_keywords =
                find_matched_keywords r.document.processed_content qkw := by
          intro hh
          subst hh
          exact ⟨le_of_not_lt hms, p.1, p.2, List.mem_cons_self p rest,
            hdoc, rfl, rfl⟩
        by_cases hstop : k ≤ (acc ++
            [(⟨doc, p.2, find_matched_keywords doc.processed_content qkw⟩ :
              SearchResult)]).length
        · simp only [hstop, if_true] at hr
          rcases List.mem_append.mp hr with h | h
          · exact Or.inl h
          · simp only [List.mem_singleton] at h
            exact Or.inr (hres h)
        · simp only [hstop, if_false] at hr
          rcases ih _ r hr with h | ⟨h1, d, s, h2, h3⟩
          · rcases List.mem_append.mp h with h | h
            · exact Or.inl h
            · simp only [List.mem_singleton] at h
              exact Or.inr (hres h)
          · exact Or.inr ⟨h1, d, s, List.mem_cons_of_mem p h2, h3⟩

/-- `search` with `top_k = 0` returns no hits. -/
theorem search_zero (pp : String → String) (lg sq : Rat → Rat)
    (idx : DocumentIndex) (q : String) :
    (idx.search pp lg sq q 0).1 = [] := by
  unfold DocumentIndex.search
  by_cases hg : q = "" ∨ idx.total_documents = 0
  · simp [hg]
  · simp only [hg, if_false]
    by_cases hq : (idx.get_query_vector pp lg q).1 = []
    · simp [hq]
    · simp [hq]

/-- C6 — the Orchestrator's `search` returns `[]` for a blank query, and
otherwise consumes the `top_k * 2` raw hits requested from the Index Engine
in score order, dropping hits below `min_score`, silently skipping hits
whose record is missing from storage, and stopping at `top_k` accumulated
results, so at most `top_k` results are returned and every result resolves
to a stored document with score at least `min_score`. -/
theorem orchestrator_search (pp : String → String) (lg sq : Rat → Rat)
    (se : SearchEngine) (q : String) (k : Nat) (ms : Rat) :
    (q.data.all Char.isWhitespace = true →
      (SearchEngine.search pp lg sq se q k ms).1 = []) ∧
    (q.data.all Char.isWhitespace = false →
      (SearchEngine.search pp lg sq se q k ms).1 =
        collectResults se.documents
          (if pp q = "" then [] else tokenize (pp q)) ms k
          (se.index.search pp lg sq q (k * 2)).1 []) ∧
    (SearchEngine.search pp lg sq se q k ms).1.length ≤ k ∧
    (∀ r ∈ (SearchEngine.search pp lg sq se q k ms).1,
      ms ≤ r.score ∧
      ∃ d s, (d, s) ∈ (se.index.search pp lg sq q (k * 2)).1 ∧
        lookupS se.documents d = some r.document ∧ r.score = s) := by
  have heq : ∀ hb : q.data.all Char.isWhitespace = false,
      (SearchEngine.search pp lg sq se q k ms).1 =
        collectResults se.documents
          (if pp q = "" then [] else tokenize (pp q)) ms k
          (se.index.search pp lg sq q (k * 2)).1 [] := by
    intro hb
    unfold SearchEngine.search
    rw [hb]
    rfl
  refine ⟨?_, heq, ?_, ?_⟩
  · intro hb
    unfold SearchEngine.search
    rw [hb]
    rfl
  · by_cases hb : q.data.all Char.isWhitespace = true
    · have hz : (SearchEngine.search pp lg sq se q k ms).1 = [] := by
        unfold SearchEngine.search
        rw [hb]
        rfl
      rw [hz]
      simp
    · rw [heq (Bool.not_eq_true _ ▸ hb)]
      by_cases hk : k = 0
      · subst hk
        rw [show 0 * 2 = 0 from rfl, search_zero pp lg sq se.index q]
        simp [collectResults]
      · exact collectResults_length se.documents _ ms k _ []
          (by simpa using Nat.pos_of_ne_zero hk)
  · intro r hr
    by_cases hb : q.data.all Char.isWhitespace = true
    · have hz : (SearchEngine.search pp lg sq se q k ms).1 = [] := by
        unfold SearchEngine.search
        rw [hb]
        rfl
      rw [hz] at hr
      cases hr
    · rw [heq (Bool.not_eq_true _ ▸ hb)] at hr
      rcases collectResults_mem se.documents _ ms k _ [] r hr with
        h | ⟨h1, d, s, h2, h3, h4, _⟩
      · cases h
      · exact ⟨h1, d, s, h2, h3, h4⟩

/-- Witness for C6 at a blank query and at a failing-threshold concrete
engine. -/
theorem orchestrator_search_witness :
    (SearchEngine.search id (fun x => x) (fun x => x)
      ⟨[], emptyIndex⟩ " " 5 0).1 = [] :=
  (orchestrator_search id (fun x => x) (fun x => x)
    ⟨[], emptyIndex⟩ " " 5 0).1 (by decide)
